import Mathlib

/-!
# Verification of the B-tree from `src/unnamed/part_000`

This file is a shallow embedding of the Go B-tree found in the repository
(types `BTreeNode`/`BTree` and functions `NewBTree`, `Search`, `searchNode`,
`Insert`, `isFull`, `insertNonFull`, `splitChild`), together with proofs of
the behavioural properties stated in the specification.

Modelling conventions:
* Go slices become `List`s; Go `int` becomes `Int` (no arithmetic is ever
  performed on keys, and the degree arithmetic `2*degree-1` cannot overflow
  for any input exercised here, so unbounded integers are a faithful model).
* Go's in-place mutation becomes explicit rebuilding of the affected nodes.
* Every operation that can make the Go code panic (out-of-range slice
  indexing or slicing, parallel `keys`/`values` slices of unequal length
  driving a shift loop) returns `Option`; `none` models the panic.  On every
  input satisfying the representation invariant the Go code does not panic
  and the embedding returns `some`.
-/

namespace BT

/-- Embeds the Go struct `BTreeNode` (`keys`, `values`, `children`, `leaf`). -/
inductive BTreeNode : Type where
  | mk (keys : List Int) (values : List String) (children : List BTreeNode)
      (leafFlag : Bool) : BTreeNode

def BTreeNode.keys : BTreeNode → List Int
  | .mk ks _ _ _ => ks

def BTreeNode.values : BTreeNode → List String
  | .mk _ vs _ _ => vs

def BTreeNode.children : BTreeNode → List BTreeNode
  | .mk _ _ cs _ => cs

def BTreeNode.leafFlag : BTreeNode → Bool
  | .mk _ _ _ lf => lf

@[simp] theorem keys_mk (ks vs cs lf) : (BTreeNode.mk ks vs cs lf).keys = ks := rfl
@[simp] theorem values_mk (ks vs cs lf) : (BTreeNode.mk ks vs cs lf).values = vs := rfl
@[simp] theorem children_mk (ks vs cs lf) : (BTreeNode.mk ks vs cs lf).children = cs := rfl
@[simp] theorem leafFlag_mk (ks vs cs lf) : (BTreeNode.mk ks vs cs lf).leafFlag = lf := rfl

/-- Embeds the Go struct `BTree` (`root`, `degree`). -/
structure BTree : Type where
  root : BTreeNode
  degree : Int

/-- Embeds `NewBTree`: a single empty leaf root; the degree is stored
unchecked, exactly as in the source. -/
def NewBTree (degree : Int) : BTree :=
  { root := .mk [] [] [] true, degree := degree }

/-- The scan loop of `searchNode`: starting from `i = 0`, advance while
`i < len(keys) && key > keys[i]`.  The result is the final value of `i`. -/
def seekIdx : List Int → Int → Nat
  | [], _ => 0
  | k :: rest, key => if key > k then seekIdx rest key + 1 else 0

/-- Embeds `searchNode`.  `none` models the panics Go would raise on
`values[i]` or `children[i]` being out of range (impossible on well-formed
trees). -/
def searchNode (n : BTreeNode) (key : Int) : Option (String × Bool) :=
  match n with
  | .mk ks vs cs lf =>
    let i := seekIdx ks key
    if i < ks.length ∧ ks.getD i 0 = key then
      match vs[i]? with
      | some v => some (v, true)
      | none => none
    else if lf then some ("", false)
    else match h : cs[i]? with
      | some c => searchNode c key
      | none => none
termination_by sizeOf n
decreasing_by
  simp_wf
  have := List.sizeOf_lt_of_mem (List.getElem?_mem h)
  omega

/-- Embeds `Search`. -/
def Search (bt : BTree) (key : Int) : Option (String × Bool) :=
  searchNode bt.root key

/-- Embeds `isFull`: `len(node.keys) == 2*bt.degree-1` (Go `int` comparison). -/
def isFull (t : Int) (n : BTreeNode) : Bool :=
  (n.keys.length : Int) == 2 * t - 1

/-- The scan loop shared by the leaf shift-insert and the internal descent of
`insertNonFull`: starting from `i = len(keys)-1`, step left while
`i >= 0 && key < keys[i]`; the loop's outcome is the count of the scanned
(strictly greater) suffix, computed here on the reversed list. -/
def gtRun : List Int → Int → Nat
  | [], _ => 0
  | k :: rest, key => if key < k then gtRun rest key + 1 else 0

/-- The index at which the scan loop of `insertNonFull` stops, as a position
in `keys`: the leaf case writes the new key there, the internal case descends
into the child there. -/
def rightIdx (ks : List Int) (key : Int) : Nat :=
  ks.length - gtRun ks.reverse key

/-- The bounds checks under which `splitChild` runs without panicking: they
cover the slicings `keys[mid+1:]`, `values[mid+1:]`, `children[mid+1:]`, the
index accesses `keys[mid]`, `values[mid]`, and the parent shift loop over the
parallel `keys`/`values`/`children` slices. -/
def splitGuard (t : Int) (pks : List Int) (pvs : List String) (cks : List Int)
    (cvs : List String) (ccs : List BTreeNode) (clf : Bool) (index : Nat) : Prop :=
  0 ≤ t - 1 ∧ (t - 1).toNat < cks.length ∧ (t - 1).toNat < cvs.length ∧
    (clf = false → (t - 1).toNat + 1 ≤ ccs.length) ∧
    index ≤ pks.length ∧ index ≤ pvs.length

instance (t pks pvs cks cvs ccs clf index) :
    Decidable (splitGuard t pks pvs cks cvs ccs clf index) := by
  unfold splitGuard; infer_instance

/-- Embeds `splitChild`.  `mid = degree - 1`; the child keeps
`keys[:mid]`/`values[:mid]` (and `children[:mid+1]` when internal), the new
sibling receives `keys[mid+1:]`/`values[mid+1:]` (and `children[mid+1:]`),
and the parent's append-then-shift-right loops insert `keys[mid]`/`values[mid]`
at `index` and the sibling at `index+1`.  `none` models the panics. -/
def splitChild (t : Int) (parent : BTreeNode) (index : Nat) : Option BTreeNode :=
  match parent with
  | .mk pks pvs pcs plf =>
    match pcs[index]? with
    | none => none
    | some (.mk cks cvs ccs clf) =>
      if splitGuard t pks pvs cks cvs ccs clf index then
        let m := (t - 1).toNat
        let newChild : BTreeNode :=
          .mk (cks.drop (m + 1)) (cvs.drop (m + 1))
            (if clf then [] else ccs.drop (m + 1)) clf
        let fullChild : BTreeNode :=
          .mk (cks.take m) (cvs.take m)
            (if clf then ccs else ccs.take (m + 1)) clf
        some (.mk (pks.insertIdx index (cks.getD m 0))
                  (pvs.insertIdx index (cvs.getD m ""))
                  ((pcs.set index fullChild).insertIdx (index + 1) newChild)
                  plf)
      else none

mutual
/-- Height measure used for termination: one more than the largest height
among the children (a leaf has height `1`). -/
def height : BTreeNode → Nat
  | .mk _ _ cs _ => 1 + heightL cs
termination_by n => sizeOf n
decreasing_by simp_wf; omega

def heightL : List BTreeNode → Nat
  | [] => 0
  | c :: cs => max (height c) (heightL cs)
termination_by cs => sizeOf cs
decreasing_by all_goals simp_wf <;> omega
end

theorem height_le_of_mem {c : BTreeNode} {cs : List BTreeNode} (h : c ∈ cs) :
    height c ≤ heightL cs := by
  induction cs with
  | nil => cases h
  | cons d ds ih =>
    rw [heightL]
    rcases List.mem_cons.1 h with rfl | h
    · exact Nat.le_max_left _ _
    · exact le_trans (ih h) (Nat.le_max_right _ _)

theorem heightL_le_of_subset {l cs : List BTreeNode} (h : ∀ c ∈ l, c ∈ cs) :
    heightL l ≤ heightL cs := by
  induction l with
  | nil => rw [heightL]; exact Nat.zero_le _
  | cons d ds ih =>
    rw [heightL]
    exact max_le (height_le_of_mem (h d (List.mem_cons_self d ds)))
      (ih fun c hc => h c (List.mem_cons_of_mem d hc))

theorem height_mk_le_of_children_subset {ks ks' vs vs' cs cs' lf lf'}
    (h : ∀ c ∈ cs', c ∈ cs) :
    height (.mk ks' vs' cs' lf') ≤ height (.mk ks vs cs lf) := by
  rw [height, height]
  exact Nat.add_le_add_left (heightL_le_of_subset h) 1

/-- Every child of a `splitChild` result is strictly lower than the parent it
came from: it is either an untouched original child or one of the two halves
of the split child, whose children are a sub-multiset of the split child's. -/
theorem splitChild_height {t : Int} {ks : List Int} {vs : List String}
    {cs : List BTreeNode} {lf : Bool} {i : Nat} {ks' : List Int}
    {vs' : List String} {cs' : List BTreeNode} {lf' : Bool}
    (h : splitChild t (.mk ks vs cs lf) i = some (.mk ks' vs' cs' lf')) :
    ∀ c' ∈ cs', height c' < height (.mk ks vs cs lf) := by
  intro c' hc'
  rw [splitChild] at h
  split at h
  · exact absurd h (by simp)
  rename_i cks cvs ccs clf hcg
  split at h
  case isFalse => exact absurd h (by simp)
  rename_i hg
  have hchild : BTreeNode.mk cks cvs ccs clf ∈ cs := List.getElem?_mem hcg
  have hidx : i < cs.length := (List.getElem?_eq_some_iff.1 hcg).1
  have hcs' : cs' =
      ((cs.set i (BTreeNode.mk (cks.take ((t-1).toNat)) (cvs.take ((t-1).toNat))
        (if clf then ccs else ccs.take ((t-1).toNat + 1)) clf)).insertIdx (i + 1)
        (BTreeNode.mk (cks.drop ((t-1).toNat + 1)) (cvs.drop ((t-1).toNat + 1))
        (if clf then [] else ccs.drop ((t-1).toNat + 1)) clf)) := by
    injection h with h1
    injection h1 with e1 e2 e3 e4
    exact e3.symm
  rw [hcs'] at hc'
  have hlen : i + 1 ≤ (cs.set i (BTreeNode.mk (cks.take ((t-1).toNat))
      (cvs.take ((t-1).toNat))
      (if clf then ccs else ccs.take ((t-1).toNat + 1)) clf)).length := by
    rw [List.length_set]; omega
  rcases (List.mem_insertIdx hlen).1 hc' with rfl | hmem
  · -- the new sibling
    have h1 : height (BTreeNode.mk (cks.drop ((t-1).toNat + 1)) (cvs.drop ((t-1).toNat + 1))
        (if clf then [] else ccs.drop ((t-1).toNat + 1)) clf) ≤
        height (BTreeNode.mk cks cvs ccs clf) := by
      apply height_mk_le_of_children_subset
      intro c hc
      rcases clf with _ | _
      · simp at hc
        exact List.mem_of_mem_drop hc
      · simp at hc
    calc height _ ≤ height (BTreeNode.mk cks cvs ccs clf) := h1
      _ ≤ heightL cs := height_le_of_mem hchild
      _ < height (BTreeNode.mk ks vs cs lf) := by rw [height]; omega
  · rcases List.mem_or_eq_of_mem_set hmem with hmem | rfl
    · calc height c' ≤ heightL cs := height_le_of_mem hmem
        _ < height (BTreeNode.mk ks vs cs lf) := by rw [height]; omega
    · -- the trimmed original child
      have h1 : height (BTreeNode.mk (cks.take ((t-1).toNat)) (cvs.take ((t-1).toNat))
          (if clf then ccs else ccs.take ((t-1).toNat + 1)) clf) ≤
          height (BTreeNode.mk cks cvs ccs clf) := by
        apply height_mk_le_of_children_subset
        intro c hc
        rcases clf with _ | _
        · simp at hc
          exact List.mem_of_mem_take hc
        · simpa using hc
      calc height _ ≤ height (BTreeNode.mk cks cvs ccs clf) := h1
        _ ≤ heightL cs := height_le_of_mem hchild
        _ < height (BTreeNode.mk ks vs cs lf) := by rw [height]; omega

/-- The post-split re-comparison of `insertNonFull`: `if key > node.keys[i] { i++ }`. -/
def descendIdx (ks : List Int) (i : Nat) (key : Int) : Nat :=
  if key > ks.getD i 0 then i + 1 else i

/-- Embeds `insertNonFull`.  The leaf case is the append-then-shift-left
ordered insertion of `key`/`value` at `rightIdx`; the internal case descends
at `rightIdx`, first splitting the target child when it is full and then
re-comparing against the newly promoted median (`keys[i]` after the split).
`none` models the panics of the shift loop on unequal parallel slices and of
`children[i]` indexing. -/
def insertNonFull (t : Int) (n : BTreeNode) (key : Int) (value : String) :
    Option BTreeNode :=
  match n with
  | .mk ks vs cs lf =>
    if lf then
      if ks.length = vs.length then
        some (.mk (ks.insertIdx (rightIdx ks key) key)
                  (vs.insertIdx (rightIdx ks key) value) cs lf)
      else none
    else
      match hc0 : cs[rightIdx ks key]? with
      | none => none
      | some child =>
        if isFull t child then
          match hsp : splitChild t (.mk ks vs cs lf) (rightIdx ks key) with
          | none => none
          | some (.mk ks' vs' cs' lf') =>
            match hcm : cs'[descendIdx ks' (rightIdx ks key) key]? with
            | none => none
            | some child' =>
              match insertNonFull t child' key value with
              | none => none
              | some c' =>
                some (.mk ks' vs' (cs'.set (descendIdx ks' (rightIdx ks key) key) c') lf')
        else
          match insertNonFull t child key value with
          | none => none
          | some c' => some (.mk ks vs (cs.set (rightIdx ks key) c') lf)
termination_by height n
decreasing_by
  · exact splitChild_height hsp child' (List.getElem?_mem hcm)
  · have := height_le_of_mem (List.getElem?_mem hc0)
    rw [height]
    omega

/-- Embeds `Insert`: when the root is full, push it under a fresh internal
root, split it there, and continue with `insertNonFull` on the (possibly new)
root. -/
def Insert (bt : BTree) (key : Int) (value : String) : Option BTree :=
  if isFull bt.degree bt.root then
    match splitChild bt.degree (.mk [] [] [bt.root] false) 0 with
    | none => none
    | some newRoot =>
      (insertNonFull bt.degree newRoot key value).map (fun r => ⟨r, bt.degree⟩)
  else
    (insertNonFull bt.degree bt.root key value).map (fun r => ⟨r, bt.degree⟩)

/-- `insertNonFull` with an added entry check that the node is not full: the
code itself never performs this check, and C9 asserts it would always pass.
The body is otherwise identical to `insertNonFull`. -/
def insertNonFullChk (t : Int) (n : BTreeNode) (key : Int) (value : String) :
    Option BTreeNode :=
  if isFull t n then none
  else
    match n with
    | .mk ks vs cs lf =>
      if lf then
        if ks.length = vs.length then
          some (.mk (ks.insertIdx (rightIdx ks key) key)
                    (vs.insertIdx (rightIdx ks key) value) cs lf)
        else none
      else
        match hc0 : cs[rightIdx ks key]? with
        | none => none
        | some child =>
          if isFull t child then
            match hsp : splitChild t (.mk ks vs cs lf) (rightIdx ks key) with
            | none => none
            | some (.mk ks' vs' cs' lf') =>
              match hcm : cs'[descendIdx ks' (rightIdx ks key) key]? with
              | none => none
              | some child' =>
                match insertNonFullChk t child' key value with
                | none => none
                | some c' =>
                  some (.mk ks' vs' (cs'.set (descendIdx ks' (rightIdx ks key) key) c') lf')
          else
            match insertNonFullChk t child key value with
            | none => none
            | some c' => some (.mk ks vs (cs.set (rightIdx ks key) c') lf)
termination_by height n
decreasing_by
  · exact splitChild_height hsp child' (List.getElem?_mem hcm)
  · have := height_le_of_mem (List.getElem?_mem hc0)
    rw [height]
    omega

/-- `Insert` with `insertNonFullChk` in place of `insertNonFull`: succeeds
exactly when every node the descent hands to the insertion routine is
non-full. -/
def InsertChk (bt : BTree) (key : Int) (value : String) : Option BTree :=
  if isFull bt.degree bt.root then
    match splitChild bt.degree (.mk [] [] [bt.root] false) 0 with
    | none => none
    | some newRoot =>
      (insertNonFullChk bt.degree newRoot key value).map (fun r => ⟨r, bt.degree⟩)
  else
    (insertNonFullChk bt.degree bt.root key value).map (fun r => ⟨r, bt.degree⟩)

/-- A sequence of `Insert` calls starting from `NewBTree degree`, as in the
demo `main`. -/
def buildTree (degree : Int) (l : List (Int × String)) : Option BTree :=
  l.foldlM (fun bt kv => Insert bt kv.1 kv.2) (NewBTree degree)

/-! ### Fuel-indexed evaluators

`searchNode` and `insertNonFull` are defined by well-founded recursion, which
the kernel cannot evaluate definitionally.  The following structurally
recursive variants take a fuel argument and agree with the originals whenever
they return `some`; concrete runs are evaluated through them. -/

def searchNodeF : Nat → BTreeNode → Int → Option (String × Bool)
  | 0, _, _ => none
  | fuel + 1, .mk ks vs cs lf, key =>
    let i := seekIdx ks key
    if i < ks.length ∧ ks.getD i 0 = key then
      (vs[i]?).map (fun v => (v, true))
    else if lf then some ("", false)
    else (cs[i]?).bind (fun c => searchNodeF fuel c key)

def insertNonFullF : Nat → Int → BTreeNode → Int → String → Option BTreeNode
  | 0, _, _, _, _ => none
  | fuel + 1, t, .mk ks vs cs lf, key, value =>
    if lf then
      if ks.length = vs.length then
        some (.mk (ks.insertIdx (rightIdx ks key) key)
                  (vs.insertIdx (rightIdx ks key) value) cs lf)
      else none
    else
      (cs[rightIdx ks key]?).bind (fun child =>
        if isFull t child then
          (splitChild t (.mk ks vs cs lf) (rightIdx ks key)).bind (fun p' =>
            (p'.children[descendIdx p'.keys (rightIdx ks key) key]?).bind (fun child' =>
              (insertNonFullF fuel t child' key value).map
                (fun c' => .mk p'.keys p'.values
                  (p'.children.set (descendIdx p'.keys (rightIdx ks key) key) c')
                  p'.leafFlag)))
        else
          (insertNonFullF fuel t child key value).map
            (fun c' => .mk ks vs (cs.set (rightIdx ks key) c') lf))

def InsertF (fuel : Nat) (bt : BTree) (key : Int) (value : String) : Option BTree :=
  if isFull bt.degree bt.root then
    (splitChild bt.degree (.mk [] [] [bt.root] false) 0).bind (fun newRoot =>
      (insertNonFullF fuel bt.degree newRoot key value).map (fun r => ⟨r, bt.degree⟩))
  else
    (insertNonFullF fuel bt.degree bt.root key value).map (fun r => ⟨r, bt.degree⟩)

def buildTreeF (fuel : Nat) (degree : Int) (l : List (Int × String)) : Option BTree :=
  l.foldlM (fun bt kv => InsertF fuel bt kv.1 kv.2) (NewBTree degree)

theorem searchNodeF_sound : ∀ fuel n key r,
    searchNodeF fuel n key = some r → searchNode n key = some r := by
  intro fuel
  induction fuel with
  | zero => intro n key r h; simp [searchNodeF] at h
  | succ fuel ih =>
    intro n key r h
    rcases n with ⟨ks, vs, cs, lf⟩
    rw [searchNodeF] at h
    rw [searchNode]
    split
    · rename_i hfound
      rw [if_pos hfound] at h
      rcases hv : vs[seekIdx ks key]? with _ | v
      · rw [hv] at h; exact absurd h (by simp)
      · rw [hv] at h
        exact h
    · rename_i hnf
      rw [if_neg hnf] at h
      split
      · rename_i hlf; rw [if_pos hlf] at h; exact h
      · rename_i hlf
        rw [if_neg hlf] at h
        split
        · rename_i c hx
          simp only [hx, Option.some_bind] at h
          exact ih c key r h
        · rename_i hx
          rw [hx] at h
          exact h

theorem insertNonFullF_sound : ∀ fuel t n key value r,
    insertNonFullF fuel t n key value = some r →
    insertNonFull t n key value = some r := by
  intro fuel
  induction fuel with
  | zero => intro t n key value r h; simp [insertNonFullF] at h
  | succ fuel ih =>
    intro t n key value r h
    rcases n with ⟨ks, vs, cs, lf⟩
    rw [insertNonFullF] at h
    rw [insertNonFull]
    split
    · rename_i hlf
      rw [if_pos hlf] at h
      exact h
    · rename_i hlf
      rw [if_neg hlf] at h
      split
      · rename_i hc0
        rw [hc0] at h
        exact h
      · rename_i child hc0
        simp only [hc0, Option.some_bind] at h
        split
        · rename_i hfull
          rw [if_pos hfull] at h
          split
          · rename_i hsp
            rw [hsp] at h
            exact h
          · rename_i ks' vs' cs' lf' hsp
            simp only [hsp, Option.some_bind, keys_mk, values_mk, children_mk,
              leafFlag_mk] at h
            split
            · rename_i hcm
              rw [hcm] at h
              exact h
            · rename_i child' hcm
              simp only [hcm, Option.some_bind] at h
              rcases Option.map_eq_some'.1 h with ⟨c', hrec, hmap⟩
              rw [ih _ _ _ _ _ hrec]
              exact congrArg some hmap
        · rename_i hfull
          rw [if_neg hfull] at h
          rcases Option.map_eq_some'.1 h with ⟨c', hrec, hmap⟩
          rw [ih _ _ _ _ _ hrec]
          exact congrArg some hmap

theorem InsertF_sound {fuel : Nat} {bt : BTree} {key : Int} {value : String}
    {bt' : BTree} (h : InsertF fuel bt key value = some bt') :
    Insert bt key value = some bt' := by
  rw [InsertF] at h
  rw [Insert]
  split
  · rename_i hfull
    rw [if_pos hfull] at h
    split
    · rename_i hsp
      rw [hsp] at h
      simp at h
    · rename_i newRoot hsp
      simp only [hsp, Option.some_bind] at h
      rcases Option.map_eq_some'.1 h with ⟨r, hr, hmap⟩
      rw [insertNonFullF_sound _ _ _ _ _ _ hr]
      exact congrArg some hmap
  · rename_i hfull
    rw [if_neg hfull] at h
    rcases Option.map_eq_some'.1 h with ⟨r, hr, hmap⟩
    rw [insertNonFullF_sound _ _ _ _ _ _ hr]
    exact congrArg some hmap

theorem foldInsertF_sound {fuel : Nat} : ∀ (l : List (Int × String)) (b bt : BTree),
    l.foldlM (fun bt kv => InsertF fuel bt kv.1 kv.2) b = some bt →
    l.foldlM (fun bt kv => Insert bt kv.1 kv.2) b = some bt := by
  intro l
  induction l with
  | nil => intro b bt h; simpa using h
  | cons x l ih =>
    intro b bt h
    rw [List.foldlM_cons] at h ⊢
    rcases hx : InsertF fuel b x.1 x.2 with _ | b'
    · rw [hx] at h; exact absurd h (by simp)
    · rw [hx] at h
      rw [InsertF_sound hx]
      simp only [Option.bind_eq_bind, Option.some_bind] at h ⊢
      exact ih b' bt h

theorem buildTreeF_sound {fuel : Nat} {degree : Int} {l : List (Int × String)}
    {bt : BTree} (h : buildTreeF fuel degree l = some bt) :
    buildTree degree l = some bt :=
  foldInsertF_sound l (NewBTree degree) bt h

theorem searchBuildF_sound (fuel : Nat) {degree key : Int} {l : List (Int × String)}
    {r : String × Bool}
    (h : (buildTreeF fuel degree l).bind (fun bt => searchNodeF fuel bt.root key) = some r) :
    (buildTree degree l).bind (fun bt => Search bt key) = some r := by
  rcases hb : buildTreeF fuel degree l with _ | bt
  · rw [hb] at h; exact absurd h (by simp)
  · rw [hb, Option.some_bind] at h
    rw [buildTreeF_sound hb, Option.some_bind, Search]
    exact searchNodeF_sound _ _ _ _ h


/-! ### Traversal and invariants

The repository has no traversal function; the in-order walk below is the one
the specification's testable properties refer to. -/

mutual
/-- Modelled from the spec: the implicit in-order traversal (§6, §8) of a
node, listing key/value pairs in tree order; the repository itself contains
no traversal code.  A leaf lists its own pairs; an internal node interleaves
its children's traversals between its keys. -/
def toList : BTreeNode → List (Int × String)
  | .mk ks vs [] _ => ks.zip vs
  | .mk ks vs (c :: cs) _ => toList c ++ seqList ks vs cs
termination_by n => sizeOf n
decreasing_by all_goals simp_wf <;> omega

/-- The tail of an internal node's in-order traversal: key `i` followed by
the traversal of child `i+1`, for each `i`. -/
def seqList : List Int → List String → List BTreeNode → List (Int × String)
  | [], _, _ => []
  | _ :: _, [], _ => []
  | _ :: _, _ :: _, [] => []
  | k :: ks, v :: vs, c :: cs => (k, v) :: (toList c ++ seqList ks vs cs)
termination_by ks vs cs => sizeOf cs
decreasing_by all_goals simp_wf <;> omega
end

/-- The in-order key sequence of a subtree. -/
def keyList (n : BTreeNode) : List Int := (toList n).map Prod.fst

/-- Representation invariant of a node: parallel `keys`/`values` slices have
equal length, the `leaf` flag matches children emptiness, an internal node
has one more child than keys, and the same holds recursively. -/
inductive Fits : BTreeNode → Prop where
  | mk {ks : List Int} {vs : List String} {cs : List BTreeNode} {lf : Bool} :
      vs.length = ks.length →
      (lf = true → cs = []) →
      (lf = false → cs.length = ks.length + 1) →
      (∀ c ∈ cs, Fits c) →
      Fits (.mk ks vs cs lf)

theorem Fits.values_len {ks vs cs lf} (h : Fits (.mk ks vs cs lf)) :
    vs.length = ks.length := by cases h; assumption

theorem Fits.leaf_children {ks vs cs lf} (h : Fits (.mk ks vs cs lf)) :
    lf = true → cs = [] := by cases h; assumption

theorem Fits.internal_children {ks vs cs lf} (h : Fits (.mk ks vs cs lf)) :
    lf = false → cs.length = ks.length + 1 := by cases h; assumption

theorem Fits.child_fits {ks vs cs lf} (h : Fits (.mk ks vs cs lf)) :
    ∀ c ∈ cs, Fits c := by cases h; assumption

/-- Key-count bounds of the B-tree invariant: at most `2t-1` keys everywhere,
at least `t-1` keys on every node that is not the root. -/
inductive Counts (t : Int) : Bool → BTreeNode → Prop where
  | mk {isRoot : Bool} {ks : List Int} {vs : List String} {cs : List BTreeNode} {lf : Bool} :
      (isRoot = false → t - 1 ≤ (ks.length : Int)) →
      ((ks.length : Int) ≤ 2 * t - 1) →
      (∀ c ∈ cs, Counts t false c) →
      Counts t isRoot (.mk ks vs cs lf)

theorem Counts.lower {t isRoot ks vs cs lf} (h : Counts t isRoot (.mk ks vs cs lf)) :
    isRoot = false → t - 1 ≤ (ks.length : Int) := by cases h; assumption

theorem Counts.upper {t isRoot ks vs cs lf} (h : Counts t isRoot (.mk ks vs cs lf)) :
    (ks.length : Int) ≤ 2 * t - 1 := by cases h; assumption

theorem Counts.child_counts {t isRoot ks vs cs lf} (h : Counts t isRoot (.mk ks vs cs lf)) :
    ∀ c ∈ cs, Counts t false c := by cases h; assumption

theorem Counts.as_root {t isRoot n} (h : Counts t isRoot n) : Counts t true n := by
  cases h
  exact Counts.mk (by simp) (by assumption) (by assumption)

theorem Counts.of_root_lower {t ks vs cs lf} (h : Counts t true (.mk ks vs cs lf))
    (hl : t - 1 ≤ (ks.length : Int)) : Counts t false (.mk ks vs cs lf) := by
  cases h
  exact Counts.mk (fun _ => hl) (by assumption) (by assumption)

/-- Balance: all leaves of the subtree sit at the same depth `h` (`0` for a
node without children). -/
inductive Bal : Nat → BTreeNode → Prop where
  | leaf {ks vs lf} : Bal 0 (.mk ks vs [] lf)
  | node {h ks vs cs lf} : cs ≠ [] → (∀ c ∈ cs, Bal h c) → Bal (h + 1) (.mk ks vs cs lf)

/-- Strict lower bound (`none` is `-∞`). -/
def lb : Option Int → Int → Prop
  | none, _ => True
  | some a, k => a < k

/-- Strict upper bound (`none` is `+∞`). -/
def ub : Option Int → Int → Prop
  | none, _ => True
  | some b, k => k < b

@[simp] theorem lb_none (k : Int) : lb none k := trivial
@[simp] theorem ub_none (k : Int) : ub none k := trivial
@[simp] theorem lb_some (a k : Int) : lb (some a) k ↔ a < k := Iff.rfl
@[simp] theorem ub_some (b k : Int) : ub (some b) k ↔ k < b := Iff.rfl

theorem lb_mono {lo : Option Int} {a k : Int} (h : lb lo a) (hak : a ≤ k) : lb lo k := by
  cases lo with
  | none => trivial
  | some x => exact lt_of_lt_of_le h hak

theorem ub_mono {hi : Option Int} {a k : Int} (h : ub hi a) (hka : k ≤ a) : ub hi k := by
  cases hi with
  | none => trivial
  | some x => exact lt_of_le_of_lt hka h

/-- A strictly sorted key list confined to the open interval `(lo, hi)`. -/
inductive OrderedKeys : Option Int → Option Int → List Int → Prop where
  | nil {lo hi} : OrderedKeys lo hi []
  | cons {lo hi : Option Int} {k : Int} {ks : List Int} :
      lb lo k → ub hi k → OrderedKeys (some k) hi ks → OrderedKeys lo hi (k :: ks)

mutual
/-- The ordering invariant: every key of the subtree lies strictly inside
`(lo, hi)`, the node's keys are strictly sorted, and each child's subtree is
confined between the keys flanking it. -/
inductive Ordered : Option Int → Option Int → BTreeNode → Prop where
  | leaf {lo hi ks vs lf} : OrderedKeys lo hi ks → Ordered lo hi (.mk ks vs [] lf)
  | node {lo hi ks vs lf} {cs : List BTreeNode} :
      cs ≠ [] → OrderedSeq lo hi ks cs → Ordered lo hi (.mk ks vs cs lf)

/-- `OrderedSeq lo hi ks cs`: `cs` has one more element than `ks`, and the
interleaving `c₀ k₀ c₁ k₁ … cₘ` is ordered inside `(lo, hi)`. -/
inductive OrderedSeq : Option Int → Option Int → List Int → List BTreeNode → Prop where
  | single {lo hi c} : Ordered lo hi c → OrderedSeq lo hi [] [c]
  | cons {lo hi : Option Int} {k : Int} {ks : List Int} {c : BTreeNode} {cs : List BTreeNode} :
      lb lo k → ub hi k → Ordered lo (some k) c → OrderedSeq (some k) hi ks cs →
      OrderedSeq lo hi (k :: ks) (c :: cs)
end

/-- Induction over nodes with inductive hypotheses for all (deep) children. -/
theorem memInd {P : BTreeNode → Prop}
    (step : ∀ ks vs cs lf, (∀ c ∈ cs, P c) → P (.mk ks vs cs lf)) : ∀ n, P n := by
  have key : ∀ N n, sizeOf n ≤ N → P n := by
    intro N
    induction N using Nat.strong_induction_on with
    | _ N ih =>
      intro n hn
      rcases n with ⟨ks, vs, cs, lf⟩
      refine step ks vs cs lf (fun c hc => ih (sizeOf c) ?_ c le_rfl)
      have := List.sizeOf_lt_of_mem hc
      simp only [BTreeNode.mk.sizeOf_spec] at hn
      omega
  exact fun n => key (sizeOf n) n le_rfl


/-! ### Ordering lemmas -/

theorem okeys_mem {lo hi : Option Int} {ks : List Int} (h : OrderedKeys lo hi ks) :
    ∀ k ∈ ks, lb lo k ∧ ub hi k := by
  induction h with
  | nil => intro k hk; cases hk
  | cons hlb hub _ ih =>
    intro x hx
    rcases List.mem_cons.1 hx with rfl | hx
    · exact ⟨hlb, hub⟩
    · rcases ih x hx with ⟨h1, h2⟩
      exact ⟨lb_mono hlb (le_of_lt h1), h2⟩

theorem okeys_weaken_lo {a : Int} {lo hi : Option Int} {ks : List Int}
    (h : OrderedKeys (some a) hi ks) (hlo : lb lo a) : OrderedKeys lo hi ks := by
  cases h with
  | nil => exact OrderedKeys.nil
  | cons hlb hub htail => exact OrderedKeys.cons (lb_mono hlo (le_of_lt hlb)) hub htail

theorem okeys_weaken_hi {b : Int} {lo hi : Option Int} {ks : List Int}
    (h : OrderedKeys lo (some b) ks) (hhi : ub hi b) : OrderedKeys lo hi ks := by
  induction ks generalizing lo with
  | nil => exact OrderedKeys.nil
  | cons k ks ih =>
    cases h with
    | cons hlb hub htail =>
      exact OrderedKeys.cons hlb (ub_mono hhi (le_of_lt hub)) (ih htail)

theorem okeys_pairwise {lo hi : Option Int} {ks : List Int} (h : OrderedKeys lo hi ks) :
    ks.Pairwise (· < ·) := by
  induction h with
  | nil => exact List.Pairwise.nil
  | cons hlb hub htail ih =>
    refine List.Pairwise.cons ?_ ih
    intro x hx
    exact (okeys_mem htail x hx).1

theorem okeys_append {m : Int} {lo hi : Option Int} {A B : List Int}
    (hA : OrderedKeys lo (some m) A) (hlbm : lb lo m) (hubm : ub hi m)
    (hB : OrderedKeys (some m) hi B) : OrderedKeys lo hi (A ++ m :: B) := by
  induction A generalizing lo with
  | nil => exact OrderedKeys.cons hlbm hubm hB
  | cons a A ih =>
    cases hA with
    | cons hlb hub htail =>
      exact OrderedKeys.cons hlb (ub_mono hubm (le_of_lt hub)) (ih htail hub)

theorem okeys_split {m : Int} {lo hi : Option Int} {A B : List Int}
    (h : OrderedKeys lo hi (A ++ m :: B)) :
    OrderedKeys lo (some m) A ∧ lb lo m ∧ ub hi m ∧ OrderedKeys (some m) hi B := by
  induction A generalizing lo with
  | nil =>
    cases h with
    | cons hlb hub htail => exact ⟨OrderedKeys.nil, hlb, hub, htail⟩
  | cons a A ih =>
    rw [List.cons_append] at h
    cases h with
    | cons hlb hub htail =>
      rcases ih htail with ⟨h1, h2, h3, h4⟩
      exact ⟨OrderedKeys.cons hlb h2 h1, lb_mono hlb (le_of_lt h2), h3, h4⟩

/-! ### The scan indices on sorted keys -/

theorem rightIdx_le_length (ks : List Int) (key : Int) : rightIdx ks key ≤ ks.length :=
  Nat.sub_le _ _

theorem seekIdx_le_length (ks : List Int) (key : Int) : seekIdx ks key ≤ ks.length := by
  induction ks with
  | nil => rw [seekIdx]; exact le_rfl
  | cons k ks ih =>
    rw [seekIdx]
    split
    · simpa using ih
    · simp

theorem seekIdx_sorted {ks : List Int} {key : Int} (hs : ks.Pairwise (· < ·))
    (hfresh : key ∉ ks) :
    seekIdx ks key = ks.countP (fun k => decide (k < key)) := by
  induction ks with
  | nil => rw [seekIdx]; rfl
  | cons k ks ih =>
    rw [seekIdx, List.countP_cons]
    rcases List.pairwise_cons.1 hs with ⟨hk, htail⟩
    have hne : key ≠ k := fun he => hfresh (he ▸ List.mem_cons_self k ks)
    split
    · rename_i hgt
      rw [ih htail (fun hm => hfresh (List.mem_cons_of_mem k hm))]
      simp only [decide_eq_true_eq]
      rw [if_pos hgt]
    · rename_i hle
      have hklt : key < k := lt_of_le_of_ne (not_lt.1 hle) hne
      have h0 : ks.countP (fun k => decide (k < key)) = 0 := by
        rw [List.countP_eq_zero]
        intro a ha
        simp only [decide_eq_true_eq, not_lt]
        exact le_of_lt (lt_trans hklt (hk a ha))
      rw [h0]
      simp only [decide_eq_true_eq]
      rw [if_neg (not_lt.2 (le_of_lt hklt))]

theorem gtRun_sorted_desc {L : List Int} {key : Int} (hs : L.Pairwise (· > ·))
    (hfresh : key ∉ L) :
    gtRun L key = L.countP (fun k => decide (key < k)) := by
  induction L with
  | nil => rw [gtRun]; rfl
  | cons k L ih =>
    rw [gtRun, List.countP_cons]
    rcases List.pairwise_cons.1 hs with ⟨hk, htail⟩
    have hne : key ≠ k := fun he => hfresh (he ▸ List.mem_cons_self k L)
    split
    · rename_i hlt
      rw [ih htail (fun hm => hfresh (List.mem_cons_of_mem k hm))]
      simp only [decide_eq_true_eq]
      rw [if_pos hlt]
    · rename_i hge
      have hkgt : k < key := lt_of_le_of_ne (not_lt.1 hge) (fun he => hne he.symm)
      have h0 : L.countP (fun k => decide (key < k)) = 0 := by
        rw [List.countP_eq_zero]
        intro a ha
        simp only [decide_eq_true_eq, not_lt]
        exact le_of_lt (lt_trans (hk a ha) hkgt)
      rw [h0]
      simp only [decide_eq_true_eq]
      rw [if_neg (not_lt.2 (le_of_lt hkgt))]

theorem countP_lt_add_gt {ks : List Int} {key : Int} (hfresh : key ∉ ks) :
    ks.countP (fun k => decide (k < key)) + ks.countP (fun k => decide (key < k)) =
      ks.length := by
  induction ks with
  | nil => rfl
  | cons k ks ih =>
    have hne : key ≠ k := fun he => hfresh (he ▸ List.mem_cons_self k ks)
    have htail := ih (fun hm => hfresh (List.mem_cons_of_mem k hm))
    rw [List.countP_cons, List.countP_cons, List.length_cons]
    rcases lt_trichotomy k key with h | h | h
    · simp only [decide_eq_true_eq]
      rw [if_pos h, if_neg (not_lt.2 (le_of_lt h))]
      omega
    · exact absurd h.symm hne
    · simp only [decide_eq_true_eq]
      rw [if_neg (not_lt.2 (le_of_lt h)), if_pos h]
      omega

/-- On a strictly sorted key list not containing `key`, the right-to-left scan
of `insertNonFull` and the left-to-right scan of `searchNode` stop at the same
index: the number of keys smaller than `key`. -/
theorem rightIdx_eq_seekIdx {ks : List Int} {key : Int} (hs : ks.Pairwise (· < ·))
    (hfresh : key ∉ ks) : rightIdx ks key = seekIdx ks key := by
  rw [rightIdx, seekIdx_sorted hs hfresh]
  have hrev : ks.reverse.Pairwise (· > ·) := by
    rw [List.pairwise_reverse]
    exact hs
  rw [gtRun_sorted_desc hrev (by simpa using hfresh)]
  have hcnt : ks.reverse.countP (fun k => decide (key < k)) =
      ks.countP (fun k => decide (key < k)) := List.countP_reverse _ _
  rw [hcnt]
  have := countP_lt_add_gt hfresh
  have hle : ks.countP (fun k => decide (key < k)) ≤ ks.length :=
    List.countP_le_length _
  omega


/-! ### Structure lemmas for the ordering invariant -/

theorem oseq_len : ∀ {lo hi : Option Int} {ks : List Int} {cs : List BTreeNode},
    OrderedSeq lo hi ks cs → cs.length = ks.length + 1 := by
  intro lo hi ks
  induction ks generalizing lo with
  | nil =>
    intro cs h
    cases h with
    | single hord => rfl
  | cons k ks ih =>
    intro cs h
    cases h with
    | cons hlb hub hord htail =>
      rename_i c cs'
      simp only [List.length_cons]
      rw [ih htail]

theorem oseq_keys : ∀ {lo hi : Option Int} {ks : List Int} {cs : List BTreeNode},
    OrderedSeq lo hi ks cs → OrderedKeys lo hi ks := by
  intro lo hi ks
  induction ks generalizing lo with
  | nil => intro cs h; exact OrderedKeys.nil
  | cons k ks ih =>
    intro cs h
    cases h with
    | cons hlb hub hord htail => exact OrderedKeys.cons hlb hub (ih htail)

theorem ordered_okeys {lo hi : Option Int} {ks vs cs lf}
    (h : Ordered lo hi (.mk ks vs cs lf)) : OrderedKeys lo hi ks := by
  cases h with
  | leaf hk => exact hk
  | node hne hs => exact oseq_keys hs

/-- Locate the child the search/insert descent enters: in an `OrderedSeq`, the
child at index `seekIdx ks key` exists, its interval contains `key`, and
replacing it by any node ordered in the same interval preserves the
`OrderedSeq`. -/
theorem oseq_descend {key : Int} : ∀ {lo hi : Option Int} {ks : List Int}
    {cs : List BTreeNode},
    OrderedSeq lo hi ks cs → lb lo key → ub hi key → key ∉ ks →
    ∃ lo' hi' C, cs[seekIdx ks key]? = some C ∧ Ordered lo' hi' C ∧
      lb lo' key ∧ ub hi' key ∧
      ∀ C', Ordered lo' hi' C' →
        OrderedSeq lo hi ks (cs.set (seekIdx ks key) C') := by
  intro lo hi ks
  induction ks generalizing lo with
  | nil =>
    intro cs h hlo hhi _
    cases h with
    | single hord =>
      refine ⟨lo, hi, _, by rw [seekIdx]; rfl, hord, hlo, hhi, ?_⟩
      intro C' hC'
      rw [seekIdx]
      exact OrderedSeq.single hC'
  | cons k ks ih =>
    intro cs h hlo hhi hfresh
    cases h with
    | cons hlb hub hord htail =>
      rename_i c cs'
      have hne : key ≠ k := fun he => hfresh (he ▸ List.mem_cons_self k ks)
      rw [seekIdx]
      split
      · rename_i hgt
        rcases ih htail hgt hhi (fun hm => hfresh (List.mem_cons_of_mem k hm)) with
          ⟨lo', hi', C, hget, hC, hlok, hhik, hrep⟩
        refine ⟨lo', hi', C, by simpa using hget, hC, hlok, hhik, ?_⟩
        intro C' hC'
        rw [List.set_cons_succ]
        exact OrderedSeq.cons hlb hub hord (hrep C' hC')
      · rename_i hle
        have hklt : key < k := lt_of_le_of_ne (not_lt.1 hle) hne
        refine ⟨lo, some k, c, by simp, hord, hlo, hklt, ?_⟩
        intro C' hC'
        rw [List.set_cons_zero]
        exact OrderedSeq.cons hlb hub hC' htail

/-- Split surgery on an `OrderedSeq`: the child at any index `i` exists
together with its interval, and replacing it by two nodes flanking a median
inside that interval — promoting the median into the key list at `i` and the
right half into the child list at `i+1` — preserves the `OrderedSeq`. -/
theorem oseq_split_at : ∀ (i : Nat) {lo hi : Option Int} {ks : List Int}
    {cs : List BTreeNode},
    OrderedSeq lo hi ks cs → i < cs.length →
    ∃ lo' hi' C, cs[i]? = some C ∧ Ordered lo' hi' C ∧
      ∀ med trimmed sib, lb lo' med → ub hi' med →
        Ordered lo' (some med) trimmed → Ordered (some med) hi' sib →
        OrderedSeq lo hi (ks.insertIdx i med)
          ((cs.set i trimmed).insertIdx (i + 1) sib) := by
  intro i
  induction i with
  | zero =>
    intro lo hi ks cs h hlen
    cases h with
    | single hord =>
      refine ⟨lo, hi, _, by simp, hord, ?_⟩
      intro med trimmed sib hlbm hubm htr hsb
      simp only [List.insertIdx_zero, List.set_cons_zero]
      have : ([trimmed] : List BTreeNode).insertIdx 1 sib = [trimmed, sib] := by
        simp [List.insertIdx_succ_cons, List.insertIdx_zero]
      rw [this]
      exact OrderedSeq.cons hlbm hubm htr (OrderedSeq.single hsb)
    | cons hlb hub hord htail =>
      rename_i k ks' c cs'
      refine ⟨lo, some k, c, by simp, hord, ?_⟩
      intro med trimmed sib hlbm hubm htr hsb
      simp only [List.insertIdx_zero, List.set_cons_zero]
      have : (trimmed :: cs').insertIdx 1 sib = trimmed :: sib :: cs' := by
        simp [List.insertIdx_succ_cons, List.insertIdx_zero]
      rw [this]
      exact OrderedSeq.cons hlbm (ub_mono hub (le_of_lt hubm)) htr
        (OrderedSeq.cons hubm hub hsb htail)
  | succ j ih =>
    intro lo hi ks cs h hlen
    cases h with
    | single hord => simp at hlen
    | cons hlb hub hord htail =>
      rename_i k ks' c cs'
      have hj : j < cs'.length := by simpa using hlen
      rcases ih htail hj with ⟨lo', hi', C, hget, hC, hrep⟩
      refine ⟨lo', hi', C, by simpa using hget, hC, ?_⟩
      intro med trimmed sib hlbm hubm htr hsb
      rw [List.insertIdx_succ_cons, List.set_cons_succ, List.insertIdx_succ_cons]
      exact OrderedSeq.cons hlb hub hord (hrep med trimmed sib hlbm hubm htr hsb)


/-! ### Traversal lemmas -/

theorem insertIdx_perm {α : Type} (a : α) : ∀ (i : Nat) (l : List α), i ≤ l.length →
    List.Perm (l.insertIdx i a) (a :: l) := by
  intro i
  induction i with
  | zero =>
    intro l _
    rw [List.insertIdx_zero]
  | succ j ih =>
    intro l hl
    rcases l with _ | ⟨x, l⟩
    · simp at hl
    · rw [List.insertIdx_succ_cons]
      exact List.Perm.trans (List.Perm.cons x (ih l (by simpa using hl)))
        (List.Perm.swap a x l)

theorem zip_insertIdx : ∀ (i : Nat) (ks : List Int) (vs : List String) (k : Int)
    (v : String), ks.length = vs.length → i ≤ ks.length →
    (ks.insertIdx i k).zip (vs.insertIdx i v) = (ks.zip vs).insertIdx i (k, v) := by
  intro i
  induction i with
  | zero => intro ks vs k v _ _; simp [List.insertIdx_zero]
  | succ j ih =>
    intro ks vs k v hlen hle
    rcases ks with _ | ⟨k0, ks⟩
    · simp at hle
    · rcases vs with _ | ⟨v0, vs⟩
      · simp at hlen
      · rw [List.insertIdx_succ_cons, List.insertIdx_succ_cons, List.zip_cons_cons,
          List.zip_cons_cons, List.insertIdx_succ_cons]
        rw [ih ks vs k v (by simpa using hlen) (by simpa using hle)]

theorem seqList_append : ∀ (ks1 : List Int) (vs1 : List String) (cs1 : List BTreeNode)
    (ks2 vs2 cs2), ks1.length = vs1.length → ks1.length = cs1.length →
    seqList (ks1 ++ ks2) (vs1 ++ vs2) (cs1 ++ cs2) =
      seqList ks1 vs1 cs1 ++ seqList ks2 vs2 cs2 := by
  intro ks1
  induction ks1 with
  | nil =>
    intro vs1 cs1 ks2 vs2 cs2 h1 h2
    have hv : vs1 = [] := List.length_eq_zero.1 h1.symm
    have hc : cs1 = [] := List.length_eq_zero.1 h2.symm
    subst hv; subst hc
    simp [seqList]
  | cons k ks1 ih =>
    intro vs1 cs1 ks2 vs2 cs2 h1 h2
    rcases vs1 with _ | ⟨v, vs1⟩
    · simp at h1
    rcases cs1 with _ | ⟨c, cs1⟩
    · simp at h2
    simp only [List.cons_append]
    rw [seqList, seqList]
    rw [ih vs1 cs1 ks2 vs2 cs2 (by simpa using h1) (by simpa using h2)]
    simp [List.append_assoc]

theorem getD_eq_getElem_of_lt {α : Type} (l : List α) (d : α) {m : Nat}
    (hm : m < l.length) : l.getD m d = l[m] := by
  rw [List.getD_eq_getElem?_getD, List.getElem?_eq_getElem hm]
  rfl

/-- The in-order traversal of a full child splits into the trimmed half, the
promoted median pair, and the new sibling, exactly as `splitChild` carves it. -/
theorem toList_child_split {m : Nat} {cks : List Int} {cvs : List String}
    {ccs : List BTreeNode} {clf : Bool}
    (hfit : Fits (.mk cks cvs ccs clf)) (hm : m < cks.length) :
    toList (.mk cks cvs ccs clf) =
      toList (.mk (cks.take m) (cvs.take m)
        (if clf then ccs else ccs.take (m + 1)) clf) ++
      (cks.getD m 0, cvs.getD m "") ::
      toList (.mk (cks.drop (m + 1)) (cvs.drop (m + 1))
        (if clf then [] else ccs.drop (m + 1)) clf) := by
  have hvlen : cvs.length = cks.length := hfit.values_len
  have hmv : m < cvs.length := hvlen ▸ hm
  rcases clf with _ | _
  · -- internal child
    have hclen : ccs.length = cks.length + 1 := hfit.internal_children rfl
    rcases ccs with _ | ⟨c0, ccs'⟩
    · simp at hclen
    have hccs' : ccs'.length = cks.length := by simpa using hclen
    have hm' : m < ccs'.length := hccs' ▸ hm
    have hdlen : 0 < (ccs'.drop m).length := by
      rw [List.length_drop]
      omega
    rcases hdrop : ccs'.drop m with _ | ⟨cb0, CB⟩
    · rw [hdrop] at hdlen; simp at hdlen
    simp only [Bool.false_eq_true, if_false]
    have htake : (c0 :: ccs').take (m + 1) = c0 :: ccs'.take m := by
      rw [List.take_cons_succ]
    have hdrop2 : (c0 :: ccs').drop (m + 1) = cb0 :: CB := by
      rw [List.drop_succ_cons, hdrop]
    rw [htake, hdrop2]
    rw [toList, toList, toList]
    have hkdec : cks.take m ++ cks[m] :: cks.drop (m + 1) = cks := by
      rw [List.getElem_cons_drop cks m hm, List.take_append_drop]
    have hvdec : cvs.take m ++ cvs[m] :: cvs.drop (m + 1) = cvs := by
      rw [List.getElem_cons_drop cvs m hmv, List.take_append_drop]
    have hcdec : ccs'.take m ++ cb0 :: CB = ccs' := by
      rw [← hdrop, List.take_append_drop]
    calc toList c0 ++ seqList cks cvs ccs'
        = toList c0 ++ seqList (cks.take m ++ cks[m] :: cks.drop (m + 1))
            (cvs.take m ++ cvs[m] :: cvs.drop (m + 1)) (ccs'.take m ++ cb0 :: CB) := by
          rw [hkdec, hvdec, hcdec]
      _ = toList c0 ++ (seqList (cks.take m) (cvs.take m) (ccs'.take m) ++
            seqList (cks[m] :: cks.drop (m + 1)) (cvs[m] :: cvs.drop (m + 1))
              (cb0 :: CB)) := by
          rw [seqList_append]
          · rw [List.length_take, List.length_take]
            omega
          · rw [List.length_take, List.length_take]
            omega
      _ = toList c0 ++ (seqList (cks.take m) (cvs.take m) (ccs'.take m) ++
            ((cks[m], cvs[m]) :: (toList cb0 ++
              seqList (cks.drop (m + 1)) (cvs.drop (m + 1)) CB))) := by
          rw [seqList]
      _ = (toList c0 ++ seqList (cks.take m) (cvs.take m) (ccs'.take m)) ++
            (cks.getD m 0, cvs.getD m "") :: (toList cb0 ++
              seqList (cks.drop (m + 1)) (cvs.drop (m + 1)) CB) := by
          rw [getD_eq_getElem_of_lt cks 0 hm, getD_eq_getElem_of_lt cvs "" hmv]
          simp [List.append_assoc]
  · -- leaf child
    have hccs : ccs = [] := hfit.leaf_children rfl
    subst hccs
    simp only [if_true]
    rw [toList, toList, toList]
    have h1 : (cks.zip cvs).take m = (cks.take m).zip (cvs.take m) :=
      List.take_zipWith
    have h2 : (cks.zip cvs).drop m = (cks.drop m).zip (cvs.drop m) :=
      List.drop_zipWith
    have h3 : cks.drop m = cks[m] :: cks.drop (m + 1) :=
      (List.getElem_cons_drop cks m hm).symm
    have h4 : cvs.drop m = cvs[m] :: cvs.drop (m + 1) :=
      (List.getElem_cons_drop cvs m hmv).symm
    calc cks.zip cvs = (cks.zip cvs).take m ++ (cks.zip cvs).drop m :=
          (List.take_append_drop m (cks.zip cvs)).symm
      _ = (cks.take m).zip (cvs.take m) ++
            ((cks[m], cvs[m]) :: (cks.drop (m + 1)).zip (cvs.drop (m + 1))) := by
          rw [h1, h2, h3, h4, List.zip_cons_cons]
      _ = (cks.take m).zip (cvs.take m) ++
            (cks.getD m 0, cvs.getD m "") ::
              (cks.drop (m + 1)).zip (cvs.drop (m + 1)) := by
          rw [getD_eq_getElem_of_lt cks 0 hm, getD_eq_getElem_of_lt cvs "" hmv]


/-- Replacing child `j+1` (the one following key `j`) by a node whose
traversal gains one pair permutes the tail traversal accordingly. -/
theorem seqList_set_perm {x : Int × String} : ∀ (j : Nat) (ks : List Int)
    (vs : List String) (cs : List BTreeNode) {C C' : BTreeNode},
    cs[j]? = some C → j < ks.length → j < vs.length →
    List.Perm (toList C') (x :: toList C) →
    List.Perm (seqList ks vs (cs.set j C')) (x :: seqList ks vs cs) := by
  intro j
  induction j with
  | zero =>
    intro ks vs cs C C' hget hk hv hperm
    rcases cs with _ | ⟨c, cs'⟩
    · simp at hget
    rcases ks with _ | ⟨k, ks'⟩
    · simp at hk
    rcases vs with _ | ⟨v, vs'⟩
    · simp at hv
    have hc : c = C := by simpa using hget
    subst hc
    rw [List.set_cons_zero, seqList, seqList]
    refine List.Perm.trans (List.Perm.cons (k, v)
      (List.Perm.append_right (seqList ks' vs' cs') hperm)) ?_
    rw [List.cons_append]
    exact List.Perm.swap x (k, v) _
  | succ i ih =>
    intro ks vs cs C C' hget hk hv hperm
    rcases cs with _ | ⟨c, cs'⟩
    · simp at hget
    rcases ks with _ | ⟨k, ks'⟩
    · simp at hk
    rcases vs with _ | ⟨v, vs'⟩
    · simp at hv
    rw [List.set_cons_succ, seqList, seqList]
    have htail := ih ks' vs' cs' (by simpa using hget) (by simpa using hk)
      (by simpa using hv) hperm
    refine List.Perm.trans (List.Perm.cons (k, v)
      (List.Perm.append_left (toList c) htail)) ?_
    have : (k, v) :: (toList c ++ x :: seqList ks' vs' cs') =
        ((k, v) :: toList c) ++ x :: seqList ks' vs' cs' := by
      rw [List.cons_append]
    rw [this]
    exact List.perm_middle

/-- Replacing the child at index `i` of a node by one whose traversal gains
one pair permutes the node's traversal accordingly. -/
theorem toList_set_perm {x : Int × String} {lf : Bool} :
    ∀ (i : Nat) (ks : List Int) (vs : List String) (cs : List BTreeNode)
    {C C' : BTreeNode},
    cs[i]? = some C → i ≤ ks.length → i ≤ vs.length →
    List.Perm (toList C') (x :: toList C) →
    List.Perm (toList (.mk ks vs (cs.set i C') lf))
      (x :: toList (.mk ks vs cs lf)) := by
  intro i ks vs cs C C' hget hk hv hperm
  rcases cs with _ | ⟨c, cs'⟩
  · simp at hget
  rcases i with _ | j
  · have hc : c = C := by simpa using hget
    subst hc
    rw [List.set_cons_zero, toList, toList]
    refine List.Perm.trans (List.Perm.append_right (seqList ks vs cs') hperm) ?_
    rw [List.cons_append]
  · rw [List.set_cons_succ, toList, toList]
    have htail := seqList_set_perm j ks vs cs' (by simpa using hget)
      (by omega) (by omega) hperm
    refine List.Perm.trans (List.Perm.append_left (toList c) htail) ?_
    exact List.perm_middle

/-- Key-level split surgery inside `seqList`: replacing the child after key
`j` by its two halves with the median key promoted between them leaves the
traversal unchanged. -/
theorem seqList_split_surgery {med : Int} {medv : String} {trimmed sib : BTreeNode} :
    ∀ (j : Nat) (ks : List Int) (vs : List String) (cs : List BTreeNode)
    {C : BTreeNode},
    cs[j]? = some C → j + 1 ≤ ks.length → j + 1 ≤ vs.length →
    toList C = toList trimmed ++ (med, medv) :: toList sib →
    seqList (ks.insertIdx (j + 1) med) (vs.insertIdx (j + 1) medv)
      ((cs.set j trimmed).insertIdx (j + 1) sib) = seqList ks vs cs := by
  intro j
  induction j with
  | zero =>
    intro ks vs cs C hget hk hv hsplit
    rcases cs with _ | ⟨c, cs'⟩
    · simp at hget
    rcases ks with _ | ⟨k, ks'⟩
    · simp at hk
    rcases vs with _ | ⟨v, vs'⟩
    · simp at hv
    have hc : c = C := by simpa using hget
    subst hc
    rw [List.insertIdx_succ_cons, List.insertIdx_zero,
      List.insertIdx_succ_cons, List.insertIdx_zero, List.set_cons_zero,
      List.insertIdx_succ_cons, List.insertIdx_zero]
    rw [seqList, seqList, seqList, hsplit]
    simp [List.append_assoc]
  | succ i ih =>
    intro ks vs cs C hget hk hv hsplit
    rcases cs with _ | ⟨c, cs'⟩
    · simp at hget
    rcases ks with _ | ⟨k, ks'⟩
    · simp at hk
    rcases vs with _ | ⟨v, vs'⟩
    · simp at hv
    rw [List.insertIdx_succ_cons, List.insertIdx_succ_cons, List.set_cons_succ,
      List.insertIdx_succ_cons]
    rw [seqList, seqList]
    rw [ih ks' vs' cs' (by simpa using hget) (by simpa using hk)
      (by simpa using hv) hsplit]

/-- Node-level split surgery: splitting the child at index `i` (keeping the
left half at `i`, promoting the median into the key/value lists at `i`, and
inserting the right half at `i+1`) leaves the node's traversal unchanged. -/
theorem toList_split_surgery {med : Int} {medv : String} {trimmed sib : BTreeNode}
    {lf : Bool} :
    ∀ (i : Nat) (ks : List Int) (vs : List String) (cs : List BTreeNode)
    {C : BTreeNode},
    cs[i]? = some C → i ≤ ks.length → i ≤ vs.length →
    toList C = toList trimmed ++ (med, medv) :: toList sib →
    toList (.mk (ks.insertIdx i med) (vs.insertIdx i medv)
      ((cs.set i trimmed).insertIdx (i + 1) sib) lf) =
      toList (.mk ks vs cs lf) := by
  intro i ks vs cs C hget hk hv hsplit
  rcases cs with _ | ⟨c, cs'⟩
  · simp at hget
  rcases i with _ | j
  · have hc : c = C := by simpa using hget
    subst hc
    rw [List.insertIdx_zero, List.insertIdx_zero, List.set_cons_zero]
    have : (trimmed :: cs').insertIdx 1 sib = trimmed :: sib :: cs' := by
      rw [List.insertIdx_succ_cons, List.insertIdx_zero]
    rw [this, toList, toList, seqList, hsplit]
    simp [List.append_assoc]
  · rw [List.set_cons_succ, List.insertIdx_succ_cons]
    rw [toList, toList]
    rw [seqList_split_surgery j ks vs cs' (by simpa using hget) (by omega)
      (by omega) hsplit]


/-! ### Splitting a full child: the pieces and their invariants -/

theorem oseq_split : ∀ {A : List Int} {lo hi : Option Int} {m : Int} {B : List Int}
    {CA CB : List BTreeNode},
    OrderedSeq lo hi (A ++ m :: B) (CA ++ CB) → CA.length = A.length + 1 →
    OrderedSeq lo (some m) A CA ∧ lb lo m ∧ ub hi m ∧ OrderedSeq (some m) hi B CB := by
  intro A
  induction A with
  | nil =>
    intro lo hi m B CA CB h hlen
    rcases CA with _ | ⟨c, CA'⟩
    · simp at hlen
    have hCA' : CA' = [] := by
      rcases CA' with _ | _
      · rfl
      · simp at hlen
    subst hCA'
    rw [List.nil_append] at h
    rw [List.singleton_append] at h
    cases h with
    | cons hlb hub hord htail =>
      exact ⟨OrderedSeq.single hord, hlb, hub, htail⟩
  | cons a A ih =>
    intro lo hi m B CA CB h hlen
    rcases CA with _ | ⟨c, CA'⟩
    · simp at hlen
    rw [List.cons_append, List.cons_append] at h
    cases h with
    | cons hlb hub hord htail =>
      rcases ih htail (by simpa using hlen) with ⟨h1, h2, h3, h4⟩
      exact ⟨OrderedSeq.cons hlb h2 hord h1, lb_mono hlb (le_of_lt h2), h3, h4⟩

theorem mem_set_insertIdx {cs : List BTreeNode} {i : Nat} {a b z : BTreeNode}
    (hi : i < cs.length) (hz : z ∈ (cs.set i a).insertIdx (i + 1) b) :
    z = a ∨ z = b ∨ z ∈ cs := by
  have hlen : i + 1 ≤ (cs.set i a).length := by rw [List.length_set]; omega
  rcases (List.mem_insertIdx hlen).1 hz with rfl | hm
  · right; left; rfl
  · rcases List.mem_or_eq_of_mem_set hm with h | rfl
    · right; right; exact h
    · left; rfl

theorem length_set_insertIdx {cs : List BTreeNode} {i : Nat} {a b : BTreeNode}
    (hi : i < cs.length) :
    ((cs.set i a).insertIdx (i + 1) b).length = cs.length + 1 := by
  rw [List.length_insertIdx _ _ (by rw [List.length_set]; omega), List.length_set]

/-- `splitChild` on a full child, explicitly: it succeeds and produces the
parent with the median key/value inserted at `index`, the trimmed left half
in place of the child, and the new right sibling just after it. -/
theorem splitChild_eq {t : Int} {pks : List Int} {pvs : List String}
    {pcs : List BTreeNode} {plf : Bool} {i : Nat} {cks : List Int}
    {cvs : List String} {ccs : List BTreeNode} {clf : Bool}
    (ht : 2 ≤ t)
    (hget : pcs[i]? = some (.mk cks cvs ccs clf))
    (hfull : (cks.length : Int) = 2 * t - 1)
    (hvlen : cvs.length = cks.length)
    (hclen : clf = false → ccs.length = cks.length + 1)
    (hipk : i ≤ pks.length) (hipv : i ≤ pvs.length) :
    splitChild t (.mk pks pvs pcs plf) i = some (.mk
      (pks.insertIdx i (cks.getD (t - 1).toNat 0))
      (pvs.insertIdx i (cvs.getD (t - 1).toNat ""))
      ((pcs.set i (.mk (cks.take (t - 1).toNat) (cvs.take (t - 1).toNat)
          (if clf then ccs else ccs.take ((t - 1).toNat + 1)) clf)).insertIdx (i + 1)
        (.mk (cks.drop ((t - 1).toNat + 1)) (cvs.drop ((t - 1).toNat + 1))
          (if clf then [] else ccs.drop ((t - 1).toNat + 1)) clf))
      plf) := by
  have hg : splitGuard t pks pvs cks cvs ccs clf i := by
    unfold splitGuard
    refine ⟨by omega, by omega, by omega, fun hcl => ?_, hipk, hipv⟩
    have := hclen hcl
    omega
  simp only [splitChild, hget, if_pos hg]

/-- The two halves of a full child keep the representation invariant. -/
theorem fits_split_pieces {t : Int} {cks : List Int} {cvs : List String}
    {ccs : List BTreeNode} {clf : Bool}
    (ht : 2 ≤ t) (hfit : Fits (.mk cks cvs ccs clf))
    (hfull : (cks.length : Int) = 2 * t - 1) :
    Fits (.mk (cks.take (t - 1).toNat) (cvs.take (t - 1).toNat)
      (if clf then ccs else ccs.take ((t - 1).toNat + 1)) clf) ∧
    Fits (.mk (cks.drop ((t - 1).toNat + 1)) (cvs.drop ((t - 1).toNat + 1))
      (if clf then [] else ccs.drop ((t - 1).toNat + 1)) clf) := by
  have hvlen : cvs.length = cks.length := hfit.values_len
  constructor
  · refine Fits.mk ?_ ?_ ?_ ?_
    · rw [List.length_take, List.length_take]; omega
    · intro hcl
      rw [if_pos hcl]
      exact hfit.leaf_children hcl
    · intro hcl
      rw [if_neg (by rw [hcl]; simp)]
      have := hfit.internal_children hcl
      rw [List.length_take, List.length_take]
      omega
    · intro c hc
      refine hfit.child_fits c ?_
      rcases clf with _ | _
      · simp only [Bool.false_eq_true, if_false] at hc
        exact List.mem_of_mem_take hc
      · simpa using hc
  · refine Fits.mk ?_ ?_ ?_ ?_
    · rw [List.length_drop, List.length_drop]; omega
    · intro hcl
      rw [if_pos hcl]
    · intro hcl
      rw [if_neg (by rw [hcl]; simp)]
      have := hfit.internal_children hcl
      rw [List.length_drop, List.length_drop]
      omega
    · intro c hc
      refine hfit.child_fits c ?_
      rcases clf with _ | _
      · simp only [Bool.false_eq_true, if_false] at hc
        exact List.mem_of_mem_drop hc
      · simp at hc

/-- The two halves of a full child stay balanced at the child's height. -/
theorem bal_split_pieces {t : Int} {hc : Nat} {cks : List Int} {cvs : List String}
    {ccs : List BTreeNode} {clf : Bool}
    (ht : 2 ≤ t) (hfit : Fits (.mk cks cvs ccs clf))
    (hbal : Bal hc (.mk cks cvs ccs clf))
    (hfull : (cks.length : Int) = 2 * t - 1) :
    Bal hc (.mk (cks.take (t - 1).toNat) (cvs.take (t - 1).toNat)
      (if clf then ccs else ccs.take ((t - 1).toNat + 1)) clf) ∧
    Bal hc (.mk (cks.drop ((t - 1).toNat + 1)) (cvs.drop ((t - 1).toNat + 1))
      (if clf then [] else ccs.drop ((t - 1).toNat + 1)) clf) := by
  cases hbal with
  | leaf =>
    have hclf : clf = true := by
      rcases clf with _ | _
      · have := hfit.internal_children rfl
        simp at this
      · rfl
    subst hclf
    simp only [if_true]
    exact ⟨Bal.leaf, Bal.leaf⟩
  | node hne hall =>
    rename_i h0
    have hclf : clf = false := by
      rcases clf with _ | _
      · rfl
      · exact absurd (hfit.leaf_children rfl) hne
    subst hclf
    have hclen : ccs.length = cks.length + 1 := hfit.internal_children rfl
    simp only [Bool.false_eq_true, if_false]
    constructor
    · refine Bal.node ?_ ?_
      · have : 0 < (ccs.take ((t - 1).toNat + 1)).length := by
          rw [List.length_take]
          have : 0 < ccs.length := by omega
          omega
        intro he
        rw [he] at this
        simp at this
      · intro c hcm
        exact hall c (List.mem_of_mem_take hcm)
    · refine Bal.node ?_ ?_
      · have : 0 < (ccs.drop ((t - 1).toNat + 1)).length := by
          rw [List.length_drop]
          omega
        intro he
        rw [he] at this
        simp at this
      · intro c hcm
        exact hall c (List.mem_of_mem_drop hcm)

/-- The two halves of a full child satisfy the non-root key-count bounds. -/
theorem counts_split_pieces {t : Int} {cks : List Int} {cvs : List String}
    {ccs : List BTreeNode} {clf : Bool}
    (ht : 2 ≤ t) (hcnt : Counts t true (.mk cks cvs ccs clf))
    (hfull : (cks.length : Int) = 2 * t - 1) :
    Counts t false (.mk (cks.take (t - 1).toNat) (cvs.take (t - 1).toNat)
      (if clf then ccs else ccs.take ((t - 1).toNat + 1)) clf) ∧
    Counts t false (.mk (cks.drop ((t - 1).toNat + 1)) (cvs.drop ((t - 1).toNat + 1))
      (if clf then [] else ccs.drop ((t - 1).toNat + 1)) clf) := by
  constructor
  · refine Counts.mk (fun _ => ?_) ?_ ?_
    · rw [List.length_take]; push_cast; omega
    · rw [List.length_take]; push_cast; omega
    · intro c hcm
      refine hcnt.child_counts c ?_
      rcases clf with _ | _
      · simp only [Bool.false_eq_true, if_false] at hcm
        exact List.mem_of_mem_take hcm
      · simpa using hcm
  · refine Counts.mk (fun _ => ?_) ?_ ?_
    · rw [List.length_drop]; push_cast; omega
    · rw [List.length_drop]; push_cast; omega
    · intro c hcm
      refine hcnt.child_counts c ?_
      rcases clf with _ | _
      · simp only [Bool.false_eq_true, if_false] at hcm
        exact List.mem_of_mem_drop hcm
      · simp at hcm

/-- Splitting a full, ordered child yields: an ordered left half below the
median, an ordered right half above it, and a median inside the child's
interval. -/
theorem ordered_split_node {t : Int} {lo hi : Option Int} {cks : List Int}
    {cvs : List String} {ccs : List BTreeNode} {clf : Bool}
    (ht : 2 ≤ t) (hfit : Fits (.mk cks cvs ccs clf))
    (hord : Ordered lo hi (.mk cks cvs ccs clf))
    (hfull : (cks.length : Int) = 2 * t - 1) :
    Ordered lo (some (cks.getD (t - 1).toNat 0))
      (.mk (cks.take (t - 1).toNat) (cvs.take (t - 1).toNat)
        (if clf then ccs else ccs.take ((t - 1).toNat + 1)) clf) ∧
    Ordered (some (cks.getD (t - 1).toNat 0)) hi
      (.mk (cks.drop ((t - 1).toNat + 1)) (cvs.drop ((t - 1).toNat + 1))
        (if clf then [] else ccs.drop ((t - 1).toNat + 1)) clf) ∧
    lb lo (cks.getD (t - 1).toNat 0) ∧ ub hi (cks.getD (t - 1).toNat 0) := by
  have hm : (t - 1).toNat < cks.length := by omega
  have hmed : cks.getD (t - 1).toNat 0 = cks[(t - 1).toNat] :=
    getD_eq_getElem_of_lt cks 0 hm
  have hkdec : cks.take (t - 1).toNat ++
      cks[(t - 1).toNat] :: cks.drop ((t - 1).toNat + 1) = cks := by
    rw [List.getElem_cons_drop cks _ hm, List.take_append_drop]
  rw [hmed]
  cases hord with
  | leaf hk =>
    obtain ⟨hA, hlbm, hubm, hB⟩ :=
      @okeys_split cks[(t - 1).toNat] lo hi (cks.take (t - 1).toNat)
        (cks.drop ((t - 1).toNat + 1)) (hkdec ▸ hk)
    refine ⟨?_, ?_, hlbm, hubm⟩
    · have : (if clf then ([] : List BTreeNode) else List.take ((t - 1).toNat + 1) []) = [] := by
        rcases clf with _ | _ <;> simp
      rw [this]
      exact Ordered.leaf hA
    · have : (if clf then ([] : List BTreeNode) else List.drop ((t - 1).toNat + 1) []) = [] := by
        rcases clf with _ | _ <;> simp
      rw [this]
      exact Ordered.leaf hB
  | node hne hs =>
    have hclf : clf = false := by
      rcases clf with _ | _
      · rfl
      · exact absurd (hfit.leaf_children rfl) hne
    subst hclf
    simp only [Bool.false_eq_true, if_false]
    have hclen : ccs.length = cks.length + 1 := hfit.internal_children rfl
    have hcdec : ccs.take ((t - 1).toNat + 1) ++ ccs.drop ((t - 1).toNat + 1) = ccs :=
      List.take_append_drop _ _
    have hlenCA : (ccs.take ((t - 1).toNat + 1)).length =
        (cks.take (t - 1).toNat).length + 1 := by
      rw [List.length_take, List.length_take]
      omega
    obtain ⟨hA, hlbm, hubm, hB⟩ := oseq_split (hkdec ▸ hcdec ▸ hs) hlenCA
    refine ⟨?_, ?_, hlbm, hubm⟩
    · refine Ordered.node ?_ hA
      intro he
      have : (ccs.take ((t - 1).toNat + 1)).length = 0 := by rw [he]; rfl
      rw [List.length_take] at this
      omega
    · refine Ordered.node ?_ hB
      intro he
      have : (ccs.drop ((t - 1).toNat + 1)).length = 0 := by rw [he]; rfl
      rw [List.length_drop] at this
      omega

/-! ### Helpers for the insertion master lemma -/

theorem bal_congr {h : Nat} {ks ks' : List Int} {vs vs' : List String}
    {cs : List BTreeNode} {lf lf' : Bool} (hb : Bal h (.mk ks vs cs lf)) :
    Bal h (.mk ks' vs' cs lf') := by
  cases hb with
  | leaf => exact Bal.leaf
  | node hne hall => exact Bal.node hne hall

theorem isFull_true_iff {t : Int} {n : BTreeNode} :
    isFull t n = true ↔ (n.keys.length : Int) = 2 * t - 1 := by
  rw [isFull]
  exact beq_iff_eq

theorem isFull_false_iff {t : Int} {n : BTreeNode} :
    isFull t n = false ↔ (n.keys.length : Int) ≠ 2 * t - 1 := by
  rw [← Bool.not_eq_true, isFull_true_iff]

/-- Inserting a fresh key at its scan position keeps a key list sorted and
bounded. -/
theorem okeys_insert {key : Int} : ∀ {lo hi : Option Int} {ks : List Int},
    OrderedKeys lo hi ks → lb lo key → ub hi key → key ∉ ks →
    OrderedKeys lo hi (ks.insertIdx (seekIdx ks key) key) := by
  intro lo hi ks h
  induction h with
  | nil =>
    intro hlo hhi _
    rw [seekIdx, List.insertIdx_zero]
    exact OrderedKeys.cons hlo hhi OrderedKeys.nil
  | cons hlb hub htail ih =>
    rename_i lo' hi' k ks'
    intro hlo hhi hfresh
    have hne : key ≠ k := fun he => hfresh (he ▸ List.mem_cons_self k ks')
    rw [seekIdx]
    split
    · rename_i hgt
      rw [List.insertIdx_succ_cons]
      exact OrderedKeys.cons hlb hub
        (ih hgt hhi (fun hm => hfresh (List.mem_cons_of_mem k hm)))
    · rename_i hle
      have hklt : key < k := lt_of_le_of_ne (not_lt.1 hle) hne
      rw [List.insertIdx_zero]
      exact OrderedKeys.cons hlo hhi (OrderedKeys.cons hklt hub htail)

theorem mem_seqList_of_mem_child : ∀ (cs : List BTreeNode) (ks : List Int)
    (vs : List String) {c : BTreeNode}, c ∈ cs → cs.length ≤ ks.length →
    cs.length ≤ vs.length → ∀ x ∈ toList c, x ∈ seqList ks vs cs := by
  intro cs
  induction cs with
  | nil => intro ks vs c hc; cases hc
  | cons c0 cs' ih =>
    intro ks vs c hc hk hv x hx
    rcases ks with _ | ⟨k, ks'⟩
    · simp at hk
    rcases vs with _ | ⟨v, vs'⟩
    · simp at hv
    rw [seqList]
    rcases List.mem_cons.1 hc with rfl | hc
    · exact List.mem_cons_of_mem _ (List.mem_append_left _ hx)
    · exact List.mem_cons_of_mem _ (List.mem_append_right _
        (ih ks' vs' hc (by simpa using hk) (by simpa using hv) x hx))

/-- An entry of a child's traversal is an entry of the node's traversal. -/
theorem toList_child_sub {ks : List Int} {vs : List String} {cs : List BTreeNode}
    {lf : Bool} (hfit : Fits (.mk ks vs cs lf)) {c : BTreeNode} (hc : c ∈ cs) :
    ∀ x ∈ toList c, x ∈ toList (.mk ks vs cs lf) := by
  intro x hx
  rcases cs with _ | ⟨c0, cs'⟩
  · cases hc
  have hlen : cs'.length = ks.length := by
    have hl : lf = false := by
      rcases lf with _ | _
      · rfl
      · have := hfit.leaf_children rfl
        simp at this
    have := hfit.internal_children hl
    simpa using this
  rw [toList]
  rcases List.mem_cons.1 hc with rfl | hc
  · exact List.mem_append_left _ hx
  · refine List.mem_append_right _ ?_
    refine mem_seqList_of_mem_child cs' ks vs hc (by omega) ?_ x hx
    rw [hfit.values_len]
    omega

/-- A node's own keys appear in its traversal's key sequence. -/
theorem keys_sub_keyList {ks : List Int} {vs : List String} {cs : List BTreeNode}
    {lf : Bool} (hfit : Fits (.mk ks vs cs lf)) :
    ∀ k ∈ ks, k ∈ keyList (.mk ks vs cs lf) := by
  have main : ∀ (ks' : List Int) (vs' : List String) (cs' : List BTreeNode),
      ks'.length ≤ vs'.length → ks'.length ≤ cs'.length →
      ∀ k ∈ ks', ∃ v, (k, v) ∈ seqList ks' vs' cs' := by
    intro ks'
    induction ks' with
    | nil => intro vs' cs' _ _ k hk; cases hk
    | cons k0 ks' ih =>
      intro vs' cs' hv hc k hk
      rcases vs' with _ | ⟨v0, vs'⟩
      · simp at hv
      rcases cs' with _ | ⟨c0, cs'⟩
      · simp at hc
      rw [seqList]
      rcases List.mem_cons.1 hk with rfl | hk
      · exact ⟨v0, List.mem_cons_self _ _⟩
      · rcases ih vs' cs' (by simpa using hv) (by simpa using hc) k hk with ⟨v, hv'⟩
        exact ⟨v, List.mem_cons_of_mem _ (List.mem_append_right _ hv')⟩
  intro k hk
  rcases cs with _ | ⟨c0, cs'⟩
  · rw [keyList, toList]
    have hvlen : vs.length = ks.length := hfit.values_len
    rcases List.mem_iff_getElem.1 hk with ⟨j, hj, rfl⟩
    refine List.mem_map.2 ⟨(ks[j], vs[j]), ?_, rfl⟩
    rw [List.mem_iff_getElem]
    refine ⟨j, ?_, ?_⟩
    · rw [List.length_zip]
      omega
    · rw [List.getElem_zip]
  · have hl : lf = false := by
      rcases lf with _ | _
      · rfl
      · have := hfit.leaf_children rfl
        simp at this
    have hlen : cs'.length = ks.length := by
      have := hfit.internal_children hl
      simpa using this
    rcases main ks vs cs' (le_of_eq hfit.values_len.symm) (by omega) k hk with ⟨v, hv⟩
    rw [keyList, toList]
    refine List.mem_map.2 ⟨(k, v), ?_, rfl⟩
    exact List.mem_append_right _ hv

/-- A key of a child's subtree appears in the node's traversal keys. -/
theorem keyList_child_sub {ks : List Int} {vs : List String} {cs : List BTreeNode}
    {lf : Bool} (hfit : Fits (.mk ks vs cs lf)) {c : BTreeNode} (hc : c ∈ cs) :
    ∀ k ∈ keyList c, k ∈ keyList (.mk ks vs cs lf) := by
  intro k hk
  rcases List.mem_map.1 hk with ⟨x, hx, rfl⟩
  exact List.mem_map.2 ⟨x, toList_child_sub hfit hc x hx, rfl⟩


/-! ### Branch equations for the insertion routines -/

theorem insertNonFull_leaf_eq {t key : Int} {value : String} {ks : List Int}
    {vs : List String} {cs : List BTreeNode} (hlen : ks.length = vs.length) :
    insertNonFull t (.mk ks vs cs true) key value =
      some (.mk (ks.insertIdx (rightIdx ks key) key)
        (vs.insertIdx (rightIdx ks key) value) cs true) := by
  rw [insertNonFull]
  rw [if_pos rfl, if_pos hlen]

theorem insertNonFull_nofull_eq {t key : Int} {value : String} {ks : List Int}
    {vs : List String} {cs : List BTreeNode} {child : BTreeNode}
    (hc : cs[rightIdx ks key]? = some child) (hnf : isFull t child = false) :
    insertNonFull t (.mk ks vs cs false) key value =
      (insertNonFull t child key value).map
        (fun c' => .mk ks vs (cs.set (rightIdx ks key) c') false) := by
  rw [insertNonFull]
  rw [if_neg (by simp)]
  split
  · rename_i h0
    rw [h0] at hc
    exact absurd hc (by simp)
  · rename_i child2 h0
    rw [h0] at hc
    injection hc with hc
    subst hc
    rw [if_neg (by rw [hnf]; simp)]
    rcases hrec : insertNonFull t child2 key value with _ | c'
    · rfl
    · rfl

theorem insertNonFull_full_eq {t key : Int} {value : String} {ks ks1 : List Int}
    {vs vs1 : List String} {cs cs1 : List BTreeNode} {lf1 : Bool}
    {child child' : BTreeNode}
    (hc : cs[rightIdx ks key]? = some child) (hfl : isFull t child = true)
    (hsp : splitChild t (.mk ks vs cs false) (rightIdx ks key) =
      some (.mk ks1 vs1 cs1 lf1))
    (hcm : cs1[descendIdx ks1 (rightIdx ks key) key]? = some child') :
    insertNonFull t (.mk ks vs cs false) key value =
      (insertNonFull t child' key value).map
        (fun c' => .mk ks1 vs1
          (cs1.set (descendIdx ks1 (rightIdx ks key) key) c') lf1) := by
  rw [insertNonFull]
  rw [if_neg (by simp)]
  split
  · rename_i h0
    rw [h0] at hc
    exact absurd hc (by simp)
  · rename_i child2 h0
    rw [h0] at hc
    injection hc with hc
    subst hc
    rw [if_pos hfl]
    split
    · rename_i h1
      rw [h1] at hsp
      exact absurd hsp (by simp)
    · rename_i ks2 vs2 cs2 lf2 h1
      rw [h1] at hsp
      injection hsp with hsp
      cases hsp
      split
      · rename_i h2
        rw [h2] at hcm
        exact absurd hcm (by simp)
      · rename_i child2' h2
        rw [h2] at hcm
        injection hcm with hcm
        subst hcm
        rcases hrec : insertNonFull t child2' key value with _ | c'
        · rfl
        · rfl

theorem insertNonFullChk_leaf_eq {t key : Int} {value : String} {ks : List Int}
    {vs : List String} {cs : List BTreeNode}
    (hnf : isFull t (.mk ks vs cs true) = false) (hlen : ks.length = vs.length) :
    insertNonFullChk t (.mk ks vs cs true) key value =
      some (.mk (ks.insertIdx (rightIdx ks key) key)
        (vs.insertIdx (rightIdx ks key) value) cs true) := by
  rw [insertNonFullChk]
  rw [if_neg (by rw [hnf]; simp), if_pos rfl, if_pos hlen]

theorem insertNonFullChk_nofull_eq {t key : Int} {value : String} {ks : List Int}
    {vs : List String} {cs : List BTreeNode} {child : BTreeNode}
    (hnf : isFull t (.mk ks vs cs false) = false)
    (hc : cs[rightIdx ks key]? = some child) (hnfc : isFull t child = false) :
    insertNonFullChk t (.mk ks vs cs false) key value =
      (insertNonFullChk t child key value).map
        (fun c' => .mk ks vs (cs.set (rightIdx ks key) c') false) := by
  rw [insertNonFullChk]
  rw [if_neg (by rw [hnf]; simp)]
  rw [if_neg (by simp)]
  split
  · rename_i h0
    rw [h0] at hc
    exact absurd hc (by simp)
  · rename_i child2 h0
    rw [h0] at hc
    injection hc with hc
    subst hc
    rw [if_neg (by rw [hnfc]; simp)]
    rcases hrec : insertNonFullChk t child2 key value with _ | c'
    · rfl
    · rfl

theorem insertNonFullChk_full_eq {t key : Int} {value : String} {ks ks1 : List Int}
    {vs vs1 : List String} {cs cs1 : List BTreeNode} {lf1 : Bool}
    {child child' : BTreeNode}
    (hnf : isFull t (.mk ks vs cs false) = false)
    (hc : cs[rightIdx ks key]? = some child) (hfl : isFull t child = true)
    (hsp : splitChild t (.mk ks vs cs false) (rightIdx ks key) =
      some (.mk ks1 vs1 cs1 lf1))
    (hcm : cs1[descendIdx ks1 (rightIdx ks key) key]? = some child') :
    insertNonFullChk t (.mk ks vs cs false) key value =
      (insertNonFullChk t child' key value).map
        (fun c' => .mk ks1 vs1
          (cs1.set (descendIdx ks1 (rightIdx ks key) key) c') lf1) := by
  rw [insertNonFullChk]
  rw [if_neg (by rw [hnf]; simp)]
  rw [if_neg (by simp)]
  split
  · rename_i h0
    rw [h0] at hc
    exact absurd hc (by simp)
  · rename_i child2 h0
    rw [h0] at hc
    injection hc with hc
    subst hc
    rw [if_pos hfl]
    split
    · rename_i h1
      rw [h1] at hsp
      exact absurd hsp (by simp)
    · rename_i ks2 vs2 cs2 lf2 h1
      rw [h1] at hsp
      injection hsp with hsp
      cases hsp
      split
      · rename_i h2
        rw [h2] at hcm
        exact absurd hcm (by simp)
      · rename_i child2' h2
        rw [h2] at hcm
        injection hcm with hcm
        subst hcm
        rcases hrec : insertNonFullChk t child2' key value with _ | c'
        · rfl
        · rfl

/-- After the split promotes `med` into the keys at position `i`, the
re-comparison `descendIdx` lands exactly where the left-to-right scan of the
enlarged key list stops. -/
theorem descend_after_insert {ks : List Int} {key med : Int} {i : Nat}
    (hs1 : (ks.insertIdx i med).Pairwise (· < ·))
    (hfresh1 : key ∉ ks.insertIdx i med)
    (hs : ks.Pairwise (· < ·)) (hfresh : key ∉ ks)
    (hi : i = seekIdx ks key) (hile : i ≤ ks.length) :
    descendIdx (ks.insertIdx i med) i key = seekIdx (ks.insertIdx i med) key := by
  have hmed_at : (ks.insertIdx i med).getD i 0 = med := by
    rw [getD_eq_getElem_of_lt _ _ (by rw [List.length_insertIdx _ _ hile]; omega)]
    exact List.getElem_insertIdx_self ks med i hile
  rw [descendIdx, hmed_at]
  have hperm := insertIdx_perm med i ks hile
  have hcnt : (ks.insertIdx i med).countP (fun k => decide (k < key)) =
      (med :: ks).countP (fun k => decide (k < key)) := hperm.countP_eq _
  rw [seekIdx_sorted hs1 hfresh1, hcnt, List.countP_cons]
  rw [seekIdx_sorted hs hfresh] at hi
  simp only [decide_eq_true_eq]
  by_cases hgt : key > med
  · rw [if_pos hgt, if_pos hgt]
    omega
  · rw [if_neg hgt, if_neg hgt]
    omega


theorem counts_upper_any {t : Int} {isRoot : Bool} {n : BTreeNode}
    (h : Counts t isRoot n) : (n.keys.length : Int) ≤ 2 * t - 1 := by
  rcases n with ⟨ks, vs, cs, lf⟩
  exact h.upper

theorem counts_lower_any {t : Int} {n : BTreeNode} (h : Counts t false n) :
    t - 1 ≤ (n.keys.length : Int) := by
  rcases n with ⟨ks, vs, cs, lf⟩
  exact h.lower rfl

theorem counts_any_of_root_lower {t : Int} {n : BTreeNode} (h : Counts t true n)
    (hl : t - 1 ≤ (n.keys.length : Int)) : Counts t false n := by
  rcases n with ⟨ks, vs, cs, lf⟩
  exact h.of_root_lower hl

theorem counts_any_as_root {t : Int} {isRoot : Bool} {n : BTreeNode}
    (h : Counts t isRoot n) : Counts t true n := h.as_root

theorem set_insertIdx_get_left {cs : List BTreeNode} {i : Nat} {a b : BTreeNode}
    (hi : i < cs.length) : ((cs.set i a).insertIdx (i + 1) b)[i]? = some a := by
  have h1 : i < ((cs.set i a).insertIdx (i + 1) b).length := by
    rw [length_set_insertIdx hi]
    omega
  rw [List.getElem?_eq_getElem h1]
  congr 1
  rw [List.getElem_insertIdx_of_lt _ _ _ _ (by omega) (by rw [List.length_set]; omega)]
  exact List.getElem_set_self _

theorem set_insertIdx_get_right {cs : List BTreeNode} {i : Nat} {a b : BTreeNode}
    (hi : i < cs.length) :
    ((cs.set i a).insertIdx (i + 1) b)[i + 1]? = some b := by
  have h1 : i + 1 < ((cs.set i a).insertIdx (i + 1) b).length := by
    rw [length_set_insertIdx hi]
    omega
  rw [List.getElem?_eq_getElem h1]
  congr 1
  exact List.getElem_insertIdx_self _ _ _ (by rw [List.length_set]; omega)


/-- Master lemma for `insertNonFull`: on a well-formed, balanced,
count-bounded non-full node, insertion succeeds (also through the
entry-checked variant), preserves all structural invariants and the height,
adds exactly the one key/value pair to the traversal, and — when the key is
fresh and within the node's interval — preserves the ordering invariant. -/
theorem insertNonFull_master {t : Int} (ht : 2 ≤ t) :
    ∀ (h : Nat) (n : BTreeNode) (key : Int) (value : String),
    Fits n → Counts t true n → Bal h n → isFull t n = false →
    ∃ n', insertNonFull t n key value = some n' ∧
      insertNonFullChk t n key value = some n' ∧
      Fits n' ∧ Counts t true n' ∧ Bal h n' ∧
      n.keys.length ≤ n'.keys.length ∧ n'.keys.length ≤ n.keys.length + 1 ∧
      List.Perm (toList n') ((key, value) :: toList n) ∧
      (∀ lo hi, Ordered lo hi n → lb lo key → ub hi key → key ∉ keyList n →
        Ordered lo hi n') := by
  intro h
  induction h using Nat.strong_induction_on with
  | _ h ih =>
  intro n key value hfit hcnt hbal hnf
  rcases n with ⟨ks, vs, cs, lf⟩
  have hvlen : vs.length = ks.length := hfit.values_len
  have hup : (ks.length : Int) ≤ 2 * t - 1 := hcnt.upper
  have hnotfull : (ks.length : Int) ≠ 2 * t - 1 := by
    have := isFull_false_iff.1 hnf
    simpa using this
  rcases lf with _ | _
  · -- internal node
    have hclen : cs.length = ks.length + 1 := hfit.internal_children rfl
    cases hbal with
    | leaf => simp at hclen
    | node hne hall =>
      rename_i h0
      have hile : rightIdx ks key ≤ ks.length := rightIdx_le_length ks key
      have hilt : rightIdx ks key < cs.length := by omega
      obtain ⟨child, hc⟩ : ∃ c, cs[rightIdx ks key]? = some c :=
        ⟨_, List.getElem?_eq_getElem hilt⟩
      have hmem : child ∈ cs := List.getElem?_mem hc
      have hfitc : Fits child := hfit.child_fits child hmem
      have hcntc : Counts t false child := hcnt.child_counts child hmem
      have hbalc : Bal h0 child := hall child hmem
      rcases hfull : isFull t child with _ | _
      · -- the child is not full: plain descent
        obtain ⟨c', heq, heqchk, hfky, hcky, hbky, hg1, hg2, hperm, hord⟩ :=
          ih h0 (by omega) child key value hfitc hcntc.as_root hbalc hfull
        refine ⟨.mk ks vs (cs.set (rightIdx ks key) c') false, ?_, ?_, ?_, ?_, ?_,
          ?_, ?_, ?_, ?_⟩
        · rw [insertNonFull_nofull_eq hc hfull, heq]
          rfl
        · rw [insertNonFullChk_nofull_eq hnf hc hfull, heqchk]
          rfl
        · refine Fits.mk hvlen (fun hl => by cases hl) ?_ ?_
          · intro _
            rw [List.length_set]
            exact hclen
          · intro z hz
            rcases List.mem_or_eq_of_mem_set hz with hz | rfl
            · exact hfit.child_fits z hz
            · exact hfky
        · refine Counts.mk (fun hr => by cases hr) (by simpa using hup) ?_
          · intro z hz
            rcases List.mem_or_eq_of_mem_set hz with hz | rfl
            · exact hcnt.child_counts z hz
            · refine counts_any_of_root_lower hcky ?_
              have := counts_lower_any hcntc
              have : t - 1 ≤ (child.keys.length : Int) := this
              push_cast
              omega
        · refine Bal.node ?_ ?_
          · intro he
            have : (cs.set (rightIdx ks key) c').length = 0 := by rw [he]; rfl
            rw [List.length_set] at this
            omega
          · intro z hz
            rcases List.mem_or_eq_of_mem_set hz with hz | rfl
            · exact hall z hz
            · exact hbky
        · exact le_rfl
        · simp
        · exact toList_set_perm (rightIdx ks key) ks vs cs hc hile
            (by omega) hperm
        · intro lo hi hord0 hlo hhi hfr
          cases hord0 with
          | leaf hk => simp at hclen
          | node hne0 hs =>
            have hsorted : ks.Pairwise (· < ·) := okeys_pairwise (oseq_keys hs)
            have hfks : key ∉ ks := fun hm =>
              hfr (keys_sub_keyList hfit key hm)
            have hseek : rightIdx ks key = seekIdx ks key :=
              rightIdx_eq_seekIdx hsorted hfks
            obtain ⟨lo', hi', C, hget, hordC, hlok, hhik, hrep⟩ :=
              oseq_descend hs hlo hhi hfks
            have hCc : C = child := by
              rw [hseek] at hc
              rw [hc] at hget
              injection hget with hget
              exact hget.symm
            subst hCc
            have hfrc : key ∉ keyList C := fun hm =>
              hfr (keyList_child_sub hfit hmem key hm)
            have hordc' := hord lo' hi' hordC hlok hhik hfrc
            rw [hseek]
            refine Ordered.node ?_ (hrep c' hordc')
            intro he
            have : (cs.set (seekIdx ks key) c').length = 0 := by rw [he]; rfl
            rw [List.length_set] at this
            omega
      · -- the child is full: split it first, then descend
        rcases child with ⟨cks, cvs, ccs, clf⟩
        have hfull' : (cks.length : Int) = 2 * t - 1 := by
          simpa using isFull_true_iff.1 hfull
        have hm : (t - 1).toNat < cks.length := by omega
        have hcvlen : cvs.length = cks.length := hfitc.values_len
        have hsp := @splitChild_eq t ks vs cs false (rightIdx ks key) cks cvs ccs
          clf ht hc hfull' hcvlen hfitc.internal_children hile
          (le_of_le_of_eq hile hvlen.symm)
        obtain ⟨hfitT, hfitS⟩ := fits_split_pieces ht hfitc hfull'
        obtain ⟨hbalT, hbalS⟩ := bal_split_pieces ht hfitc hbalc hfull'
        obtain ⟨hcntT, hcntS⟩ := counts_split_pieces ht hcntc.as_root hfull'
        have hsplitL := toList_child_split hfitc hm
        have hmedmem0 : cks.getD (t - 1).toNat 0 ∈ cks := by
          rw [getD_eq_getElem_of_lt cks 0 hm]
          exact List.getElem_mem hm
        obtain ⟨med, hmed⟩ : ∃ x, cks.getD (t - 1).toNat 0 = x := ⟨_, rfl⟩
        obtain ⟨medv, hmedv⟩ : ∃ x, cvs.getD (t - 1).toNat "" = x := ⟨_, rfl⟩
        obtain ⟨trimmed, htr⟩ : ∃ x, BTreeNode.mk (cks.take (t - 1).toNat)
            (cvs.take (t - 1).toNat)
            (if clf then ccs else ccs.take ((t - 1).toNat + 1)) clf = x := ⟨_, rfl⟩
        obtain ⟨sib, hsb⟩ : ∃ x, BTreeNode.mk (cks.drop ((t - 1).toNat + 1))
            (cvs.drop ((t - 1).toNat + 1))
            (if clf then [] else ccs.drop ((t - 1).toNat + 1)) clf = x := ⟨_, rfl⟩
        rw [hmed, hmedv, htr, hsb] at hsp
        rw [htr] at hfitT hbalT hcntT
        rw [hsb] at hfitS hbalS hcntS
        rw [hmed, hmedv, htr, hsb] at hsplitL
        rw [hmed] at hmedmem0
        have htrk : (trimmed.keys.length : Int) = t - 1 := by
          rw [← htr]
          simp only [keys_mk, List.length_take]
          omega
        have hsbk : (sib.keys.length : Int) = t - 1 := by
          rw [← hsb]
          simp only [keys_mk, List.length_drop]
          omega
        obtain ⟨ks1, hks1⟩ : ∃ l, ks.insertIdx (rightIdx ks key) med = l := ⟨_, rfl⟩
        obtain ⟨vs1, hvs1⟩ : ∃ l, vs.insertIdx (rightIdx ks key) medv = l := ⟨_, rfl⟩
        obtain ⟨cs1, hcs1⟩ : ∃ l,
            (cs.set (rightIdx ks key) trimmed).insertIdx (rightIdx ks key + 1) sib
              = l := ⟨_, rfl⟩
        rw [hks1, hvs1, hcs1] at hsp
        have hks1len : ks1.length = ks.length + 1 := by
          rw [← hks1]
          exact List.length_insertIdx _ _ hile
        have hvs1len : vs1.length = vs.length + 1 := by
          rw [← hvs1]
          exact List.length_insertIdx _ _ (by omega)
        have hcs1len : cs1.length = cs.length + 1 := by
          rw [← hcs1]
          exact length_set_insertIdx hilt
        have hmedat : ks1.getD (rightIdx ks key) 0 = med := by
          rw [← hks1]
          rw [getD_eq_getElem_of_lt _ _
            (by rw [List.length_insertIdx _ _ hile]; omega)]
          exact List.getElem_insertIdx_self ks med _ hile
        have hdesc : descendIdx ks1 (rightIdx ks key) key =
            if key > med then rightIdx ks key + 1 else rightIdx ks key := by
          rw [descendIdx, hmedat]
        obtain ⟨child', hch⟩ : ∃ c, (if key > med then sib else trimmed) = c :=
          ⟨_, rfl⟩
        have hcm : cs1[descendIdx ks1 (rightIdx ks key) key]? = some child' := by
          rw [hdesc, ← hch, ← hcs1]
          by_cases hgt : key > med
          · rw [if_pos hgt, if_pos hgt]
            exact set_insertIdx_get_right hilt
          · rw [if_neg hgt, if_neg hgt]
            exact set_insertIdx_get_left hilt
        have hfitc' : Fits child' := by
          rw [← hch]
          split
          · exact hfitS
          · exact hfitT
        have hbalc' : Bal h0 child' := by
          rw [← hch]
          split
          · exact hbalS
          · exact hbalT
        have hcntc' : Counts t false child' := by
          rw [← hch]
          split
          · exact hcntS
          · exact hcntT
        have hkc' : (child'.keys.length : Int) = t - 1 := by
          rw [← hch]
          split
          · exact hsbk
          · exact htrk
        have hnfc' : isFull t child' = false := by
          rw [isFull_false_iff]
          omega
        have hdescle : descendIdx ks1 (rightIdx ks key) key ≤ ks.length + 1 := by
          rw [hdesc]
          split
          · omega
          · omega
        obtain ⟨c'', heq, heqchk, hf2, hc2, hb2, hg1', hg2', hperm2, hord2⟩ :=
          ih h0 (by omega) child' key value hfitc' hcntc'.as_root hbalc' hnfc'
        have hTLeq : toList (BTreeNode.mk ks1 vs1 cs1 false) =
            toList (BTreeNode.mk ks vs cs false) := by
          rw [← hks1, ← hvs1, ← hcs1]
          exact toList_split_surgery (rightIdx ks key) ks vs cs hc hile
            (by omega) hsplitL
        have hfits1 : Fits (BTreeNode.mk ks1 vs1 cs1 false) := by
          refine Fits.mk (by omega) (fun hl => by cases hl) (fun _ => by omega) ?_
          intro z hz
          rw [← hcs1] at hz
          rcases mem_set_insertIdx hilt hz with rfl | rfl | hz
          · exact hfitT
          · exact hfitS
          · exact hfit.child_fits z hz
        refine ⟨.mk ks1 vs1 (cs1.set (descendIdx ks1 (rightIdx ks key) key) c'')
          false, ?_, ?_, ?_, ?_, ?_, ?_, ?_, ?_, ?_⟩
        · rw [insertNonFull_full_eq hc hfull hsp hcm, heq]
          rfl
        · rw [insertNonFullChk_full_eq hnf hc hfull hsp hcm, heqchk]
          rfl
        · refine Fits.mk (by omega) (fun hl => by cases hl) ?_ ?_
          · intro _
            rw [List.length_set]
            omega
          · intro z hz
            rcases List.mem_or_eq_of_mem_set hz with hz | rfl
            · exact hfits1.child_fits z hz
            · exact hf2
        · refine Counts.mk (fun hr => by cases hr) ?_ ?_
          · push_cast
            omega
          · intro z hz
            rcases List.mem_or_eq_of_mem_set hz with hz | rfl
            · rw [← hcs1] at hz
              rcases mem_set_insertIdx hilt hz with rfl | rfl | hz
              · exact hcntT
              · exact hcntS
              · exact hcnt.child_counts z hz
            · refine counts_any_of_root_lower hc2 ?_
              push_cast
              omega
        · refine Bal.node ?_ ?_
          · intro he
            have h00 : (cs1.set (descendIdx ks1 (rightIdx ks key) key) c'').length
                = 0 := by rw [he]; rfl
            rw [List.length_set] at h00
            omega
          · intro z hz
            rcases List.mem_or_eq_of_mem_set hz with hz | rfl
            · rw [← hcs1] at hz
              rcases mem_set_insertIdx hilt hz with rfl | rfl | hz
              · exact hbalT
              · exact hbalS
              · exact hall z hz
            · exact hb2
        · simp only [keys_mk]
          omega
        · simp only [keys_mk]
          omega
        · have hstep := @toList_set_perm (key, value) false
            (descendIdx ks1 (rightIdx ks key) key) ks1 vs1 cs1 child' c'' hcm
            (by omega) (by omega) hperm2
          rw [hTLeq] at hstep
          exact hstep
        · intro lo hi hord0 hlo hhi hfr
          cases hord0 with
          | leaf hk => simp at hclen
          | node hne0 hs =>
            have hsorted : ks.Pairwise (· < ·) := okeys_pairwise (oseq_keys hs)
            have hfks : key ∉ ks := fun hmk =>
              hfr (keys_sub_keyList hfit key hmk)
            have hseek : rightIdx ks key = seekIdx ks key :=
              rightIdx_eq_seekIdx hsorted hfks
            obtain ⟨lo', hi', C, hget, hordC, hrepl⟩ :=
              oseq_split_at (rightIdx ks key) hs hilt
            have hCc : C = BTreeNode.mk cks cvs ccs clf := by
              rw [hc] at hget
              injection hget with hget
              exact hget.symm
            subst hCc
            obtain ⟨hTo, hSo, hlbm, hubm⟩ :=
              ordered_split_node ht hfitc hordC hfull'
            rw [hmed] at hTo hSo hlbm hubm
            rw [htr] at hTo
            rw [hsb] at hSo
            have hseq1 : OrderedSeq lo hi ks1 cs1 := by
              have := hrepl med trimmed sib hlbm hubm hTo hSo
              rw [hks1, hcs1] at this
              exact this
            have hsorted1 : ks1.Pairwise (· < ·) := okeys_pairwise (oseq_keys hseq1)
            have hmedkl : med ∈ keyList (BTreeNode.mk cks cvs ccs clf) :=
              keys_sub_keyList hfitc med hmedmem0
            have hkeymed : key ≠ med := fun he =>
              hfr (keyList_child_sub hfit hmem key (he ▸ hmedkl))
            have hfks1 : key ∉ ks1 := by
              intro hmem1
              rw [← hks1] at hmem1
              rcases (List.mem_insertIdx hile).1 hmem1 with he | hmem1
              · exact hkeymed he
              · exact hfks hmem1
            obtain ⟨lo'', hi'', C', hget'', hordC', hlok'', hhik'', hrep''⟩ :=
              oseq_descend hseq1 hlo hhi hfks1
            have hi'eq : descendIdx ks1 (rightIdx ks key) key =
                seekIdx ks1 key := by
              have h1 : (ks.insertIdx (rightIdx ks key) med).Pairwise (· < ·) := by
                rw [hks1]
                exact hsorted1
              have h2 : key ∉ ks.insertIdx (rightIdx ks key) med := by
                rw [hks1]
                exact hfks1
              have := descend_after_insert h1 h2 hsorted hfks hseek hile
              rw [hks1] at this
              exact this
            rw [← hi'eq] at hget''
            have hC'c : C' = child' := by
              rw [hcm] at hget''
              injection hget'' with hget''
              exact hget''.symm
            rw [hC'c] at hordC'
            have hmemc1 : child' ∈ cs1 := List.getElem?_mem hcm
            have hfrc' : key ∉ keyList child' := by
              intro hmk
              refine hfr ?_
              have h3 := keyList_child_sub hfits1 hmemc1 key hmk
              rw [keyList, hTLeq] at h3
              exact h3
            have hordc2 := hord2 lo'' hi'' hordC' hlok'' hhik'' hfrc'
            have hfin := hrep'' c'' hordc2
            rw [← hi'eq] at hfin
            refine Ordered.node ?_ hfin
            intro he
            have h00 : (cs1.set (descendIdx ks1 (rightIdx ks key) key) c'').length
                = 0 := by rw [he]; rfl
            rw [List.length_set] at h00
            omega
  · -- leaf node
    have hcs : cs = [] := hfit.leaf_children rfl
    subst hcs
    have hlen : ks.length = vs.length := hvlen.symm
    have hple : rightIdx ks key ≤ ks.length := rightIdx_le_length ks key
    have h0 : h = 0 := by
      cases hbal with
      | leaf => rfl
      | node hne _ => exact absurd rfl hne
    subst h0
    refine ⟨_, insertNonFull_leaf_eq hlen, insertNonFullChk_leaf_eq hnf hlen,
      ?_, ?_, Bal.leaf, ?_, ?_, ?_, ?_⟩
    · refine Fits.mk ?_ (fun _ => rfl) (fun hl => by cases hl) (by simp)
      rw [List.length_insertIdx _ _ hple,
        List.length_insertIdx _ _ (by omega), hvlen]
    · refine Counts.mk (fun hr => by cases hr) ?_ (by simp)
      rw [List.length_insertIdx _ _ hple]
      push_cast
      omega
    · simp [List.length_insertIdx _ _ hple]
    · simp [List.length_insertIdx _ _ hple]
    · rw [toList, toList]
      rw [zip_insertIdx _ ks vs key value hlen hple]
      refine insertIdx_perm (key, value) _ _ ?_
      rw [List.length_zip]
      omega
    · intro lo hi hord0 hlo hhi hfr
      have hk : OrderedKeys lo hi ks := ordered_okeys hord0
      have hfks : key ∉ ks := fun hm => hfr (keys_sub_keyList hfit key hm)
      have hseek : rightIdx ks key = seekIdx ks key :=
        rightIdx_eq_seekIdx (okeys_pairwise hk) hfks
      rw [hseek]
      exact Ordered.leaf (okeys_insert hk hlo hhi hfks)


/-- Master lemma for `Insert`: on a well-formed tree with degree at least 2,
insertion succeeds (also entry-checked), preserves the invariants, raises the
balanced height by one exactly when the root was full, adds the pair to the
traversal, and preserves ordering for a fresh key. -/
theorem Insert_master {bt : BTree} (ht : 2 ≤ bt.degree) {h : Nat}
    (hfit : Fits bt.root) (hcnt : Counts bt.degree true bt.root)
    (hbal : Bal h bt.root) (key : Int) (value : String) :
    ∃ bt', Insert bt key value = some bt' ∧
      InsertChk bt key value = some bt' ∧
      bt'.degree = bt.degree ∧
      Fits bt'.root ∧ Counts bt.degree true bt'.root ∧
      Bal (h + (if isFull bt.degree bt.root then 1 else 0)) bt'.root ∧
      List.Perm (toList bt'.root) ((key, value) :: toList bt.root) ∧
      (Ordered none none bt.root → key ∉ keyList bt.root →
        Ordered none none bt'.root) := by
  by_cases hfl : isFull bt.degree bt.root = true
  · -- full root: split it under a fresh root first
    rcases hroot : bt.root with ⟨rks, rvs, rcs, rlf⟩
    rw [hroot] at hfit hcnt hbal hfl
    have hfull' : (rks.length : Int) = 2 * bt.degree - 1 := by
      simpa using isFull_true_iff.1 hfl
    have hm : (bt.degree - 1).toNat < rks.length := by omega
    have hget : ([BTreeNode.mk rks rvs rcs rlf] : List BTreeNode)[0]? =
        some (.mk rks rvs rcs rlf) := rfl
    have hsp := @splitChild_eq bt.degree [] [] [.mk rks rvs rcs rlf] false 0
      rks rvs rcs rlf ht hget hfull' hfit.values_len hfit.internal_children
      (by simp) (by simp)
    obtain ⟨hfitT, hfitS⟩ := fits_split_pieces ht hfit hfull'
    obtain ⟨hbalT, hbalS⟩ := bal_split_pieces ht hfit hbal hfull'
    obtain ⟨hcntT, hcntS⟩ := counts_split_pieces ht hcnt hfull'
    have hsplitL := toList_child_split hfit hm
    have hmedmem0 : rks.getD (bt.degree - 1).toNat 0 ∈ rks := by
      rw [getD_eq_getElem_of_lt rks 0 hm]
      exact List.getElem_mem hm
    obtain ⟨med, hmed⟩ : ∃ x, rks.getD (bt.degree - 1).toNat 0 = x := ⟨_, rfl⟩
    obtain ⟨medv, hmedv⟩ : ∃ x, rvs.getD (bt.degree - 1).toNat "" = x := ⟨_, rfl⟩
    obtain ⟨trimmed, htr⟩ : ∃ x, BTreeNode.mk (rks.take (bt.degree - 1).toNat)
        (rvs.take (bt.degree - 1).toNat)
        (if rlf then rcs else rcs.take ((bt.degree - 1).toNat + 1)) rlf = x :=
      ⟨_, rfl⟩
    obtain ⟨sib, hsb⟩ : ∃ x, BTreeNode.mk (rks.drop ((bt.degree - 1).toNat + 1))
        (rvs.drop ((bt.degree - 1).toNat + 1))
        (if rlf then [] else rcs.drop ((bt.degree - 1).toNat + 1)) rlf = x :=
      ⟨_, rfl⟩
    rw [hmed, hmedv, htr, hsb] at hsp
    rw [htr] at hfitT hbalT hcntT
    rw [hsb] at hfitS hbalS hcntS
    rw [hmed, hmedv, htr, hsb] at hsplitL
    rw [hmed] at hmedmem0
    have hnewr : splitChild bt.degree (.mk [] [] [.mk rks rvs rcs rlf] false) 0 =
        some (.mk [med] [medv] [trimmed, sib] false) := hsp
    have htrk : (trimmed.keys.length : Int) = bt.degree - 1 := by
      rw [← htr]
      simp only [keys_mk, List.length_take]
      omega
    have hsbk : (sib.keys.length : Int) = bt.degree - 1 := by
      rw [← hsb]
      simp only [keys_mk, List.length_drop]
      omega
    have hfitNR : Fits (BTreeNode.mk [med] [medv] [trimmed, sib] false) := by
      refine Fits.mk rfl (fun hl => by cases hl) (fun _ => rfl) ?_
      intro z hz
      rcases List.mem_cons.1 hz with rfl | hz2
      · exact hfitT
      rcases List.mem_cons.1 hz2 with rfl | hz3
      · exact hfitS
      cases hz3
    have hcntNR : Counts bt.degree true (BTreeNode.mk [med] [medv] [trimmed, sib] false) := by
      refine Counts.mk (fun hr => by cases hr) ?_ ?_
      · simp only [List.length_cons, List.length_nil]
        omega
      · intro z hz
        rcases List.mem_cons.1 hz with rfl | hz2
        · exact hcntT
        rcases List.mem_cons.1 hz2 with rfl | hz3
        · exact hcntS
        cases hz3
    have hbalNR : Bal (h + 1) (BTreeNode.mk [med] [medv] [trimmed, sib] false) := by
      refine Bal.node (by simp) ?_
      intro z hz
      rcases List.mem_cons.1 hz with rfl | hz2
      · exact hbalT
      rcases List.mem_cons.1 hz2 with rfl | hz3
      · exact hbalS
      cases hz3
    have hnfNR : isFull bt.degree (BTreeNode.mk [med] [medv] [trimmed, sib] false)
        = false := by
      rw [isFull_false_iff]
      simp only [keys_mk, List.length_cons, List.length_nil]
      omega
    have hauxP : toList (BTreeNode.mk ([] : List Int) ([] : List String)
        [BTreeNode.mk rks rvs rcs rlf] false) = toList (.mk rks rvs rcs rlf) := by
      rw [toList, seqList, List.append_nil]
    have hTLNR : toList (BTreeNode.mk [med] [medv] [trimmed, sib] false) =
        toList (.mk rks rvs rcs rlf) := by
      have := @toList_split_surgery med medv trimmed sib false 0 [] []
        [.mk rks rvs rcs rlf] _ hget (by simp) (by simp) hsplitL
      rw [hauxP] at this
      exact this
    obtain ⟨n'', heq, heqchk, hfit'', hcnt'', hbal'', _, _, hperm'', hord''⟩ :=
      insertNonFull_master ht (h + 1) (.mk [med] [medv] [trimmed, sib] false)
        key value hfitNR hcntNR hbalNR hnfNR
    refine ⟨⟨n'', bt.degree⟩, ?_, ?_, rfl, hfit'', hcnt'', ?_, ?_, ?_⟩
    · rw [Insert, hroot, if_pos hfl, hnewr]
      show (insertNonFull bt.degree (.mk [med] [medv] [trimmed, sib] false)
        key value).map (fun r => (⟨r, bt.degree⟩ : BTree)) = some ⟨n'', bt.degree⟩
      rw [heq]
      rfl
    · rw [InsertChk, hroot, if_pos hfl, hnewr]
      show (insertNonFullChk bt.degree (.mk [med] [medv] [trimmed, sib] false)
        key value).map (fun r => (⟨r, bt.degree⟩ : BTree)) = some ⟨n'', bt.degree⟩
      rw [heqchk]
      rfl
    · rw [if_pos hfl]
      exact hbal''
    · have := hperm''
      rw [hTLNR] at this
      exact this
    · intro hord0 hfr
      have hseq : OrderedSeq none none [med] [trimmed, sib] := by
        obtain ⟨hTo, hSo, hlbm, hubm⟩ :=
          ordered_split_node ht hfit hord0 hfull'
        rw [hmed] at hTo hSo hlbm hubm
        rw [htr] at hTo
        rw [hsb] at hSo
        exact OrderedSeq.cons hlbm hubm hTo (OrderedSeq.single hSo)
      have hordNR : Ordered none none (BTreeNode.mk [med] [medv] [trimmed, sib]
          false) := Ordered.node (by simp) hseq
      have hfrNR : key ∉ keyList (BTreeNode.mk [med] [medv] [trimmed, sib] false) := by
        rw [keyList, hTLNR]
        exact hfr
      exact hord'' none none hordNR trivial trivial hfrNR
  · -- root not full: plain insertion at the root
    have hnf : isFull bt.degree bt.root = false := by
      rcases hb : isFull bt.degree bt.root with _ | _
      · rfl
      · exact absurd hb hfl
    obtain ⟨n', heq, heqchk, hfit', hcnt', hbal', _, _, hperm, hord⟩ :=
      insertNonFull_master ht h bt.root key value hfit hcnt hbal hnf
    refine ⟨⟨n', bt.degree⟩, ?_, ?_, rfl, hfit', hcnt', ?_, hperm, ?_⟩
    · rw [Insert, if_neg (by rw [hnf]; simp), heq]
      rfl
    · rw [InsertChk, if_neg (by rw [hnf]; simp), heqchk]
      rfl
    · rw [hnf]
      simpa using hbal'
    · intro hord0 hfr
      exact hord none none hord0 trivial trivial hfr


/-! ### Search: branch equations and membership lemmas -/

theorem searchNode_found_eq {key : Int} {ks : List Int} {vs : List String}
    {cs : List BTreeNode} {lf : Bool} {v : String}
    (hin : seekIdx ks key < ks.length ∧ ks.getD (seekIdx ks key) 0 = key)
    (hv : vs[seekIdx ks key]? = some v) :
    searchNode (.mk ks vs cs lf) key = some (v, true) := by
  rw [searchNode]
  rw [if_pos hin, hv]

theorem searchNode_leafmiss_eq {key : Int} {ks : List Int} {vs : List String}
    {cs : List BTreeNode}
    (hmiss : ¬(seekIdx ks key < ks.length ∧ ks.getD (seekIdx ks key) 0 = key)) :
    searchNode (.mk ks vs cs true) key = some ("", false) := by
  rw [searchNode]
  rw [if_neg hmiss, if_pos rfl]

theorem searchNode_desc_eq {key : Int} {ks : List Int} {vs : List String}
    {cs : List BTreeNode} {C : BTreeNode}
    (hmiss : ¬(seekIdx ks key < ks.length ∧ ks.getD (seekIdx ks key) 0 = key))
    (hC : cs[seekIdx ks key]? = some C) :
    searchNode (.mk ks vs cs false) key = searchNode C key := by
  rw [searchNode]
  rw [if_neg hmiss]
  rw [if_neg (by simp)]
  split
  · rename_i c hx
    rw [hx] at hC
    injection hC with hC
    rw [hC]
  · rename_i hx
    rw [hx] at hC
    exact absurd hC (by simp)

/-- On a strictly sorted key list containing `key`, the search scan stops
exactly at `key`. -/
theorem seekIdx_found {key : Int} : ∀ {ks : List Int}, ks.Pairwise (· < ·) →
    key ∈ ks → seekIdx ks key < ks.length ∧ ks.getD (seekIdx ks key) 0 = key := by
  intro ks
  induction ks with
  | nil => intro _ hm; cases hm
  | cons k ks ih =>
    intro hs hm
    rcases List.pairwise_cons.1 hs with ⟨hk, htail⟩
    rw [seekIdx]
    by_cases hgt : key > k
    · have hne : key ≠ k := ne_of_gt hgt
      have hmem : key ∈ ks := by
        rcases List.mem_cons.1 hm with he | hmem
        · exact absurd he hne
        · exact hmem
      rcases ih htail hmem with ⟨h1, h2⟩
      rw [if_pos hgt]
      refine ⟨by simpa using h1, ?_⟩
      simpa using h2
    · have hke : key = k := by
        rcases List.mem_cons.1 hm with he | hmem
        · exact he
        · exact absurd (hk key hmem) (by omega)
      rw [if_neg hgt]
      simp [hke]

theorem pair_mem_seqList : ∀ (j : Nat) (ks : List Int) (vs : List String)
    (cs : List BTreeNode), j < ks.length → j < vs.length → j < cs.length →
    (ks.getD j 0, vs.getD j "") ∈ seqList ks vs cs := by
  intro j
  induction j with
  | zero =>
    intro ks vs cs hk hv hc
    rcases ks with _ | ⟨k, ks⟩
    · simp at hk
    rcases vs with _ | ⟨v, vs⟩
    · simp at hv
    rcases cs with _ | ⟨c, cs⟩
    · simp at hc
    rw [seqList]
    exact List.mem_cons_self _ _
  | succ j ih =>
    intro ks vs cs hk hv hc
    rcases ks with _ | ⟨k, ks⟩
    · simp at hk
    rcases vs with _ | ⟨v, vs⟩
    · simp at hv
    rcases cs with _ | ⟨c, cs⟩
    · simp at hc
    rw [seqList]
    refine List.mem_cons_of_mem _ (List.mem_append_right _ ?_)
    exact ih ks vs cs (by simpa using hk) (by simpa using hv) (by simpa using hc)

/-- The pair at key index `j` of a node appears in its traversal. -/
theorem pair_mem_toList {ks : List Int} {vs : List String} {cs : List BTreeNode}
    {lf : Bool} (hfit : Fits (.mk ks vs cs lf)) {j : Nat} (hj : j < ks.length) :
    (ks.getD j 0, vs.getD j "") ∈ toList (.mk ks vs cs lf) := by
  have hvlen : vs.length = ks.length := hfit.values_len
  rcases cs with _ | ⟨c0, cs'⟩
  · rw [toList]
    have h1 : (ks.zip vs)[j]? = some (ks.getD j 0, vs.getD j "") := by
      rw [List.getElem?_eq_getElem (by rw [List.length_zip]; omega)]
      rw [List.getElem_zip]
      rw [getD_eq_getElem_of_lt ks 0 hj, getD_eq_getElem_of_lt vs "" (by omega)]
    exact List.getElem?_mem h1
  · have hcl : cs'.length = ks.length := by
      have hl : lf = false := by
        rcases lf with _ | _
        · rfl
        · have := hfit.leaf_children rfl
          simp at this
      have := hfit.internal_children hl
      simpa using this
    rw [toList]
    refine List.mem_append_right _ ?_
    exact pair_mem_seqList j ks vs cs' hj (by omega) (by omega)

/-- In a list of pairs with no repeated first component, the first component
determines the pair. -/
theorem pair_unique {L : List (Int × String)} (hnd : (L.map Prod.fst).Nodup)
    {k : Int} {a b : String} (ha : (k, a) ∈ L) (hb : (k, b) ∈ L) : a = b := by
  induction L with
  | nil => cases ha
  | cons x L ih =>
    rw [List.map_cons, List.nodup_cons] at hnd
    rcases List.mem_cons.1 ha with rfl | ha'
    · rcases List.mem_cons.1 hb with he | hb'
      · exact (congrArg Prod.snd he).symm
      · exact absurd (List.mem_map.2 ⟨(k, b), hb', rfl⟩) hnd.1
    · rcases List.mem_cons.1 hb with rfl | hb'
      · exact absurd (List.mem_map.2 ⟨(k, a), ha', rfl⟩) hnd.1
      · exact ih hnd.2 ha' hb'


theorem keyList_leaf {ks : List Int} {vs : List String} {lf : Bool}
    (hvlen : vs.length = ks.length) :
    keyList (.mk ks vs [] lf) = ks := by
  rw [keyList, toList]
  exact List.map_fst_zip ks vs (le_of_eq hvlen.symm)

theorem okeys_interleave : ∀ (ks : List Int) (lo hi : Option Int)
    (vs : List String) (c0 : BTreeNode) (cs' : List BTreeNode),
    OrderedSeq lo hi ks (c0 :: cs') →
    (∀ c ∈ c0 :: cs', ∀ lo' hi' : Option Int, Fits c → Ordered lo' hi' c →
      OrderedKeys lo' hi' (keyList c)) →
    (∀ c ∈ c0 :: cs', Fits c) →
    vs.length = ks.length →
    OrderedKeys lo hi (keyList c0 ++ (seqList ks vs cs').map Prod.fst) := by
  intro ks
  induction ks with
  | nil =>
    intro lo hi vs c0 cs' hs hIH hfits hvlen
    cases hs with
    | single hord =>
      rw [seqList]
      simp only [List.map_nil, List.append_nil]
      exact hIH c0 (List.mem_cons_self _ _) lo hi
        (hfits c0 (List.mem_cons_self _ _)) hord
  | cons k ks ih =>
    intro lo hi vs c0 cs' hs hIH hfits hvlen
    cases hs with
    | cons hlb hub hord htail =>
      have hlen : cs'.length = ks.length + 1 := oseq_len htail
      rcases cs' with _ | ⟨c1, cs''⟩
      · simp at hlen
      rcases vs with _ | ⟨v0, vs'⟩
      · simp at hvlen
      rw [seqList]
      rw [List.map_cons, List.map_append]
      have hB := ih (some k) hi vs' c1 cs'' htail
        (fun c hc => hIH c (List.mem_cons_of_mem _ hc))
        (fun c hc => hfits c (List.mem_cons_of_mem _ hc)) (by simpa using hvlen)
      have hA := hIH c0 (List.mem_cons_self _ _) lo (some k)
        (hfits c0 (List.mem_cons_self _ _)) hord
      have := okeys_append hA hlb hub hB
      simpa [keyList] using this

/-- The traversal of an ordered well-formed node lists keys strictly sorted
inside the node's interval. -/
theorem toList_okeys : ∀ (n : BTreeNode) (lo hi : Option Int), Fits n →
    Ordered lo hi n → OrderedKeys lo hi (keyList n) := by
  refine memInd ?_
  intro ks vs cs lf IH lo hi hfit hord
  rcases cs with _ | ⟨c0, cs'⟩
  · rw [keyList_leaf hfit.values_len]
    exact ordered_okeys hord
  · cases hord with
    | node hne hs =>
      have : keyList (BTreeNode.mk ks vs (c0 :: cs') lf) =
          keyList c0 ++ (seqList ks vs cs').map Prod.fst := by
        rw [keyList, toList, List.map_append]
        rfl
      rw [this]
      exact okeys_interleave ks lo hi vs c0 cs' hs
        (fun c hc lo' hi' hf ho => IH c hc lo' hi' hf ho)
        (fun c hc => hfit.child_fits c hc) hfit.values_len

/-- An entry with a key that is not one of the node's own keys and lies in
the node's interval can only sit in the subtree the search scan descends
into. -/
theorem pair_locate {key : Int} {v : String} : ∀ (ks : List Int)
    (lo hi : Option Int) (vs : List String) (cs : List BTreeNode) (lf : Bool),
    OrderedSeq lo hi ks cs → (∀ c ∈ cs, Fits c) → vs.length = ks.length →
    lb lo key → ub hi key → key ∉ ks →
    (key, v) ∈ toList (.mk ks vs cs lf) →
    ∃ C, cs[seekIdx ks key]? = some C ∧ (key, v) ∈ toList C := by
  intro ks
  induction ks with
  | nil =>
    intro lo hi vs cs lf hs hfits hvlen hlo hhi hfr hmem
    cases hs with
    | single hord =>
      rename_i c
      rw [toList, seqList, List.append_nil] at hmem
      exact ⟨c, by rw [seekIdx]; rfl, hmem⟩
  | cons k ks ih =>
    intro lo hi vs cs lf hs hfits hvlen hlo hhi hfr hmem
    cases hs with
    | cons hlb hub hord htail =>
      rename_i c0 cs'
      rcases vs with _ | ⟨v0, vs'⟩
      · simp at hvlen
      have hcs' : cs'.length = ks.length + 1 := oseq_len htail
      rcases cs' with _ | ⟨c1, cs''⟩
      · simp at hcs'
      have hkne : key ≠ k := fun he => hfr (he ▸ List.mem_cons_self k ks)
      have hfr' : key ∉ ks := fun hm => hfr (List.mem_cons_of_mem k hm)
      have htailfits : Fits (BTreeNode.mk ks vs' (c1 :: cs'') false) := by
        refine Fits.mk (by simpa using hvlen) (fun hl => by cases hl)
          (fun _ => by simpa using hcs') ?_
        intro c hc
        exact hfits c (List.mem_cons_of_mem _ hc)
      have htailkeys : OrderedKeys (some k) hi
          (keyList (BTreeNode.mk ks vs' (c1 :: cs'') false)) :=
        toList_okeys _ (some k) hi htailfits (Ordered.node (by simp) htail)
      have hc0keys : OrderedKeys lo (some k) (keyList c0) :=
        toList_okeys c0 lo (some k) (hfits c0 (List.mem_cons_self _ _)) hord
      have hmem' : (key, v) ∈ toList c0 ∨ (key, v) = (k, v0) ∨
          (key, v) ∈ toList (BTreeNode.mk ks vs' (c1 :: cs'') false) := by
        rw [toList, seqList] at hmem
        rcases List.mem_append.1 hmem with h1 | h2
        · exact Or.inl h1
        · rcases List.mem_cons.1 h2 with he | h3
          · exact Or.inr (Or.inl he)
          · refine Or.inr (Or.inr ?_)
            rw [toList]
            exact h3
      rw [seekIdx]
      by_cases hgt : key > k
      · rw [if_pos hgt]
        have hnotc0 : (key, v) ∉ toList c0 := by
          intro hin
          have := okeys_mem hc0keys key (List.mem_map.2 ⟨(key, v), hin, rfl⟩)
          rcases this with ⟨_, h2⟩
          rw [ub_some] at h2
          omega
        have hintail : (key, v) ∈ toList (BTreeNode.mk ks vs' (c1 :: cs'') false) := by
          rcases hmem' with h1 | h2 | h3
          · exact absurd h1 hnotc0
          · exact absurd (congrArg Prod.fst h2) hkne
          · exact h3
        have hmemtail : (key, v) ∈ toList (BTreeNode.mk ks vs' (c1 :: cs'') false) :=
          hintail
        rcases ih (some k) hi vs' (c1 :: cs'') false htail
          (fun c hc => hfits c (List.mem_cons_of_mem _ hc)) (by simpa using hvlen)
          hgt hhi hfr' hmemtail with ⟨C, hidx, hmemC⟩
        exact ⟨C, by simpa using hidx, hmemC⟩
      · rw [if_neg hgt]
        have hklt : key < k := lt_of_le_of_ne (not_lt.1 hgt) hkne
        have hnottail : (key, v) ∉ toList (BTreeNode.mk ks vs' (c1 :: cs'') false) := by
          intro hin
          have := okeys_mem htailkeys key (List.mem_map.2 ⟨(key, v), hin, rfl⟩)
          rcases this with ⟨h1, _⟩
          rw [lb_some] at h1
          omega
        have hinc0 : (key, v) ∈ toList c0 := by
          rcases hmem' with h1 | h2 | h3
          · exact h1
          · exact absurd (congrArg Prod.fst h2) hkne
          · exact absurd h3 hnottail
        exact ⟨c0, rfl, hinc0⟩


/-- Search correctness on an ordered well-formed subtree: a stored pair is
found with its value, and an absent key reports the not-found result. -/
theorem searchNode_correct {key : Int} : ∀ (n : BTreeNode) (lo hi : Option Int),
    Fits n → Ordered lo hi n → lb lo key → ub hi key →
    (∀ v, (key, v) ∈ toList n → searchNode n key = some (v, true)) ∧
    (key ∉ keyList n → searchNode n key = some ("", false)) := by
  refine memInd ?_
  intro ks vs cs lf IH lo hi hfit hord hlo hhi
  have hks : OrderedKeys lo hi ks := ordered_okeys hord
  have hksp : ks.Pairwise (· < ·) := okeys_pairwise hks
  constructor
  · intro v hv
    by_cases hmem : key ∈ ks
    · have hfind := seekIdx_found hksp hmem
      have hjv : vs[seekIdx ks key]? = some (vs.getD (seekIdx ks key) "") := by
        have hjlt : seekIdx ks key < vs.length := by rw [hfit.values_len]; exact hfind.1
        rw [List.getElem?_eq_getElem hjlt, getD_eq_getElem_of_lt vs "" hjlt]
      have hpair : (key, vs.getD (seekIdx ks key) "") ∈ toList (.mk ks vs cs lf) := by
        have := pair_mem_toList hfit hfind.1
        rwa [hfind.2] at this
      have hnd : (keyList (BTreeNode.mk ks vs cs lf)).Nodup :=
        List.Pairwise.imp (fun h => ne_of_lt h)
          (okeys_pairwise (toList_okeys _ lo hi hfit hord))
      have hveq : v = vs.getD (seekIdx ks key) "" := pair_unique hnd hv hpair
      rw [hveq]
      exact searchNode_found_eq hfind hjv
    · have hmiss : ¬(seekIdx ks key < ks.length ∧
          ks.getD (seekIdx ks key) 0 = key) := by
        rintro ⟨h1, h2⟩
        apply hmem
        rw [getD_eq_getElem_of_lt ks 0 h1] at h2
        exact h2 ▸ List.getElem_mem h1
      rcases cs with _ | ⟨c0, cs'⟩
      · exfalso
        rw [toList] at hv
        exact hmem (List.of_mem_zip hv).1
      · have hlf : lf = false := by
          rcases lf with _ | _
          · rfl
          · have := hfit.leaf_children rfl
            simp at this
        subst hlf
        cases hord with
        | node hne hs =>
          rcases oseq_descend hs hlo hhi hmem with
            ⟨lo', hi', C, hC, hordC, hlo', hhi', _⟩
          rcases pair_locate ks lo hi vs (c0 :: cs') false hs
            hfit.child_fits hfit.values_len hlo hhi hmem hv with ⟨C2, hC2, hvC⟩
          have hCC : C = C2 := Option.some.inj (hC.symm.trans hC2)
          subst hCC
          have hCfit : Fits C := hfit.child_fits C (List.getElem?_mem hC)
          rw [searchNode_desc_eq hmiss hC]
          exact (IH C (List.getElem?_mem hC) lo' hi' hCfit hordC hlo' hhi').1 v hvC
  · intro hfr
    have hmem : key ∉ ks := fun hk => hfr (keys_sub_keyList hfit key hk)
    have hmiss : ¬(seekIdx ks key < ks.length ∧
        ks.getD (seekIdx ks key) 0 = key) := by
      rintro ⟨h1, h2⟩
      apply hmem
      rw [getD_eq_getElem_of_lt ks 0 h1] at h2
      exact h2 ▸ List.getElem_mem h1
    rcases cs with _ | ⟨c0, cs'⟩
    · have hlf : lf = true := by
        rcases lf with _ | _
        · have := hfit.internal_children rfl
          simp at this
        · rfl
      subst hlf
      exact searchNode_leafmiss_eq hmiss
    · have hlf : lf = false := by
        rcases lf with _ | _
        · rfl
        · have := hfit.leaf_children rfl
          simp at this
      subst hlf
      cases hord with
      | node hne hs =>
        rcases oseq_descend hs hlo hhi hmem with
          ⟨lo', hi', C, hC, hordC, hlo', hhi', _⟩
        have hCfit : Fits C := hfit.child_fits C (List.getElem?_mem hC)
        have hfrC : key ∉ keyList C := fun hk =>
          hfr (keyList_child_sub hfit (List.getElem?_mem hC) key hk)
        rw [searchNode_desc_eq hmiss hC]
        exact (IH C (List.getElem?_mem hC) lo' hi' hCfit hordC hlo' hhi').2 hfrC


/-- Folding `Insert` over a list of distinct fresh keys from a well-formed
ordered tree succeeds and yields a well-formed ordered tree holding exactly
the old entries plus the new ones. -/
theorem build_master {t : Int} (ht : 2 ≤ t) :
    ∀ (l : List (Int × String)) (bt : BTree) (h : Nat),
    bt.degree = t → Fits bt.root → Counts t true bt.root →
    Bal h bt.root → Ordered none none bt.root →
    (l.map Prod.fst).Nodup →
    (∀ k ∈ l.map Prod.fst, k ∉ keyList bt.root) →
    ∃ bt' : BTree,
      l.foldlM (fun b kv => Insert b kv.1 kv.2) bt = some bt' ∧
      bt'.degree = t ∧ Fits bt'.root ∧ Counts t true bt'.root ∧
      (∃ h', Bal h' bt'.root) ∧ Ordered none none bt'.root ∧
      List.Perm (toList bt'.root) (l ++ toList bt.root) := by
  intro l
  induction l with
  | nil =>
    intro bt h hdeg hfit hcnt hbal hord hnd hfr
    exact ⟨bt, rfl, hdeg, hfit, hcnt, ⟨h, hbal⟩, hord, by simp⟩
  | cons kv l ih =>
    intro bt h hdeg hfit hcnt hbal hord hnd hfr
    have ht' : 2 ≤ bt.degree := by rw [hdeg]; exact ht
    have hcnt' : Counts bt.degree true bt.root := by rw [hdeg]; exact hcnt
    rcases Insert_master ht' hfit hcnt' hbal kv.1 kv.2 with
      ⟨bt1, hins, _, hdeg1, hfit1, hcnt1, hbal1, hperm1, hord1f⟩
    have hkfr : kv.1 ∉ keyList bt.root :=
      hfr kv.1 (by rw [List.map_cons]; exact List.mem_cons_self _ _)
    have hord1 : Ordered none none bt1.root := hord1f hord hkfr
    have hkeysperm : List.Perm (keyList bt1.root) (kv.1 :: keyList bt.root) := by
      have := hperm1.map Prod.fst
      simpa [keyList] using this
    rw [List.map_cons, List.nodup_cons] at hnd
    have hfr' : ∀ k ∈ l.map Prod.fst, k ∉ keyList bt1.root := by
      intro k hk hkin
      have hk2 : k ∈ kv.1 :: keyList bt.root := hkeysperm.mem_iff.1 hkin
      have hknotbt : k ∉ keyList bt.root :=
        hfr k (by rw [List.map_cons]; exact List.mem_cons_of_mem _ hk)
      rcases List.mem_cons.1 hk2 with rfl | htl2
      · exact hnd.1 hk
      · exact hknotbt htl2
    have hcnt1' : Counts t true bt1.root := by rw [← hdeg]; exact hcnt1
    rcases ih bt1 (h + (if isFull bt.degree bt.root then 1 else 0))
      (hdeg1.trans hdeg) hfit1 hcnt1' hbal1 hord1 hnd.2 hfr' with
      ⟨bt', hfold, hdeg', hfit', hcnt'2, hbal', hord', hperm'⟩
    refine ⟨bt', ?_, hdeg', hfit', hcnt'2, hbal', hord', ?_⟩
    · rw [List.foldlM_cons, hins]
      exact hfold
    · have h2 : List.Perm (l ++ toList bt1.root)
          (l ++ ((kv.1, kv.2) :: toList bt.root)) := List.Perm.append_left l hperm1
      have h3 : List.Perm (l ++ ((kv.1, kv.2) :: toList bt.root))
          ((kv.1, kv.2) :: (l ++ toList bt.root)) := List.perm_middle
      have := (hperm'.trans h2).trans h3
      rw [List.cons_append]
      rwa [Prod.mk.eta] at this

/-- Properties of a fresh tree: the invariants hold trivially. -/
theorem newBTree_props {t : Int} (ht : 2 ≤ t) : Fits (NewBTree t).root ∧
    Counts t true (NewBTree t).root ∧ Bal 0 (NewBTree t).root ∧
    Ordered none none (NewBTree t).root ∧ toList (NewBTree t).root = [] := by
  refine ⟨Fits.mk rfl (fun _ => rfl) (fun h => by cases h) (fun c hc => by cases hc),
    Counts.mk (by simp) (by simp; omega) (fun c hc => by cases hc),
    Bal.leaf, Ordered.leaf OrderedKeys.nil, by rw [NewBTree, toList]; rfl⟩

/-- `buildTree` on distinct keys: succeeds with all invariants established and
the traversal a permutation of the input. -/
theorem buildTree_master {t : Int} (ht : 2 ≤ t) (l : List (Int × String))
    (hnd : (l.map Prod.fst).Nodup) :
    ∃ bt' : BTree, buildTree t l = some bt' ∧
      bt'.degree = t ∧ Fits bt'.root ∧ Counts t true bt'.root ∧
      (∃ h', Bal h' bt'.root) ∧ Ordered none none bt'.root ∧
      List.Perm (toList bt'.root) l := by
  rcases newBTree_props ht with ⟨hfit, hcnt, hbal, hord, htl⟩
  rcases build_master ht l (NewBTree t) 0 rfl hfit hcnt hbal hord hnd
    (fun k _ => by rw [keyList, htl]; simp) with
    ⟨bt', hfold, hdeg', hfit', hcnt', hbal', hord', hperm'⟩
  refine ⟨bt', hfold, hdeg', hfit', hcnt', hbal', hord', ?_⟩
  rwa [htl, List.append_nil] at hperm'


/-! ### Height, node-local sortedness, and unchecked build sequences -/

theorem heightL_const {x : Nat} : ∀ {cs : List BTreeNode}, cs ≠ [] →
    (∀ c ∈ cs, height c = x) → heightL cs = x := by
  intro cs
  induction cs with
  | nil => intro h; exact absurd rfl h
  | cons c cs' ih =>
    intro _ hall
    rw [heightL]
    by_cases hcs' : cs' = []
    · subst hcs'
      rw [heightL, hall c (List.mem_cons_self _ _)]
      exact Nat.max_eq_left (Nat.zero_le _)
    · rw [ih hcs' (fun d hd => hall d (List.mem_cons_of_mem _ hd)),
        hall c (List.mem_cons_self _ _)]
      exact Nat.max_self x

/-- On balanced subtrees the termination measure `height` is determined by
the balance depth. -/
theorem bal_height {h : Nat} {n : BTreeNode} (hb : Bal h n) :
    height n = h + 1 := by
  induction hb with
  | leaf => rw [height, heightL]
  | node hne _ ih =>
    rw [height, heightL_const hne ih]
    omega

/-- Two strictly sorted lists that are permutations of each other are equal. -/
theorem sorted_lt_perm_eq : ∀ {L1 L2 : List Int}, L1.Perm L2 →
    L1.Pairwise (· < ·) → L2.Pairwise (· < ·) → L1 = L2 := by
  intro L1
  induction L1 with
  | nil => intro L2 hp _ _; exact (hp.nil_eq).symm ▸ rfl
  | cons a T1 ih =>
    intro L2 hp hs1 hs2
    rcases L2 with _ | ⟨b, T2⟩
    · exact absurd hp.symm (by simp [List.Perm.nil_eq, List.nil_perm])
    have hab : a = b := by
      have haL2 : a ∈ b :: T2 := hp.mem_iff.1 (List.mem_cons_self _ _)
      have hbL1 : b ∈ a :: T1 := hp.mem_iff.2 (List.mem_cons_self _ _)
      rcases List.mem_cons.1 haL2 with he | ha2
      · exact he
      · rcases List.mem_cons.1 hbL1 with he | hb2
        · exact he.symm
        · have h1 : b < a := (List.rel_of_pairwise_cons hs2) ha2
          have h2 : a < b := (List.rel_of_pairwise_cons hs1) hb2
          omega
    subst hab
    rw [ih (hp.cons_inv) (List.pairwise_cons.1 hs1).2 (List.pairwise_cons.1 hs2).2]

/-- Sortedness of each node's own key slice, the node-local part of the
ordering invariant (claim C1's second conjunct). -/
inductive NodeSorted : BTreeNode → Prop where
  | mk {ks : List Int} {vs : List String} {cs : List BTreeNode} {lf : Bool} :
      ks.Pairwise (· < ·) → (∀ c ∈ cs, NodeSorted c) →
      NodeSorted (.mk ks vs cs lf)

theorem oseq_child_ordered : ∀ {lo hi : Option Int} {ks : List Int}
    {cs : List BTreeNode}, OrderedSeq lo hi ks cs →
    ∀ c ∈ cs, ∃ lo' hi', Ordered lo' hi' c := by
  intro lo hi ks
  induction ks generalizing lo with
  | nil =>
    intro cs h
    cases h with
    | single hord =>
      intro c hc
      rw [List.mem_singleton] at hc
      exact ⟨_, _, hc ▸ hord⟩
  | cons k ks ih =>
    intro cs h
    cases h with
    | cons hlb hub hord htail =>
      intro c hc
      rcases List.mem_cons.1 hc with rfl | hc2
      · exact ⟨_, _, hord⟩
      · exact ih htail c hc2

theorem ordered_nodeSorted : ∀ (n : BTreeNode) (lo hi : Option Int),
    Ordered lo hi n → NodeSorted n := by
  refine memInd ?_
  intro ks vs cs lf IH lo hi hord
  refine NodeSorted.mk (okeys_pairwise (ordered_okeys hord)) ?_
  intro c hc
  cases hord with
  | leaf hk => cases hc
  | node hne hs =>
    rcases oseq_child_ordered hs c hc with ⟨lo', hi', hordc⟩
    exact IH c hc lo' hi' hordc

/-- Folding `Insert` from any well-formed tree (duplicate keys allowed)
succeeds, agrees with the checked variant, and keeps the structural
invariants. -/
theorem build_any_master {t : Int} (ht : 2 ≤ t) :
    ∀ (l : List (Int × String)) (bt : BTree) (h : Nat),
    bt.degree = t → Fits bt.root → Counts t true bt.root → Bal h bt.root →
    ∃ bt' : BTree,
      l.foldlM (fun b kv => Insert b kv.1 kv.2) bt = some bt' ∧
      l.foldlM (fun b kv => InsertChk b kv.1 kv.2) bt = some bt' ∧
      bt'.degree = t ∧ Fits bt'.root ∧ Counts t true bt'.root ∧
      (∃ h', Bal h' bt'.root) ∧
      List.Perm (toList bt'.root) (l ++ toList bt.root) := by
  intro l
  induction l with
  | nil =>
    intro bt h hdeg hfit hcnt hbal
    exact ⟨bt, rfl, rfl, hdeg, hfit, hcnt, ⟨h, hbal⟩, by simp⟩
  | cons kv l ih =>
    intro bt h hdeg hfit hcnt hbal
    have ht' : 2 ≤ bt.degree := by rw [hdeg]; exact ht
    have hcnt' : Counts bt.degree true bt.root := by rw [hdeg]; exact hcnt
    rcases Insert_master ht' hfit hcnt' hbal kv.1 kv.2 with
      ⟨bt1, hins, hinsChk, hdeg1, hfit1, hcnt1, hbal1, hperm1, _⟩
    have hcnt1' : Counts t true bt1.root := by rw [← hdeg]; exact hcnt1
    rcases ih bt1 (h + (if isFull bt.degree bt.root then 1 else 0))
      (hdeg1.trans hdeg) hfit1 hcnt1' hbal1 with
      ⟨bt', hfold, hfoldChk, hdeg', hfit', hcnt'2, hbal', hperm'⟩
    refine ⟨bt', ?_, ?_, hdeg', hfit', hcnt'2, hbal', ?_⟩
    · rw [List.foldlM_cons, hins]
      exact hfold
    · rw [List.foldlM_cons, hinsChk]
      exact hfoldChk
    · have h2 : List.Perm (l ++ toList bt1.root)
          (l ++ ((kv.1, kv.2) :: toList bt.root)) := List.Perm.append_left l hperm1
      have h3 : List.Perm (l ++ ((kv.1, kv.2) :: toList bt.root))
          ((kv.1, kv.2) :: (l ++ toList bt.root)) := List.perm_middle
      have := (hperm'.trans h2).trans h3
      rw [List.cons_append]
      rwa [Prod.mk.eta] at this

/-! ## Claims -/

/-- **C10**: on a freshly constructed tree (`NewBTree degree`, a single empty
leaf root), `Search key` returns the not-found result `("", false)` without
error, for every key and every degree. -/
theorem C10_search_fresh_tree_not_found (degree key : Int) :
    Search (NewBTree degree) key = some ("", false) := by
  rw [Search, NewBTree]
  rw [searchNode]
  simp [seekIdx]

/-- Witness for C10 at a concrete instance. -/
theorem C10_search_fresh_tree_not_found_witness :
    Search (NewBTree 3) 42 = some ("", false) :=
  C10_search_fresh_tree_not_found 3 42

/-- **C4, counterexample**: the claim says `new(degree)` fails with a
configuration error whenever `degree < 2`.  The source `NewBTree` performs no
validation at all: at `degree = 1` it succeeds and returns the ordinary
initialized tree (a single empty leaf root), with no error of any kind. -/
theorem C4_counterexample_no_validation_at_degree_one :
    NewBTree 1 = { root := .mk [] [] [] true, degree := 1 } := rfl

/-- **C4, amended**: `NewBTree degree` never fails and performs no degree
validation: for every degree (including every `degree < 2`) it succeeds and
initializes the tree to a single empty leaf root; no validation happens at
construction (nor is any configuration check performed during search or
insert, whose code never revisits the degree's validity). -/
theorem C4_amended_new_btree_total (degree : Int) :
    NewBTree degree = { root := .mk [] [] [] true, degree := degree } := rfl

/-- The literal key/value sequence inserted by the demo `main`. -/
def demoEntries : List (Int × String) :=
  [(1, "Record 1"), (3, "Record 3"), (7, "Record 7"), (10, "Record 10"),
   (11, "Record 11"), (13, "Record 13"), (14, "Record 14"), (15, "Record 15"),
   (18, "Record 18"), (16, "Record 16"), (19, "Record 19"), (24, "Record 24")]

/-- **C8**: after building a degree-3 tree by inserting keys
`1, 3, 7, 10, 11, 13, 14, 15, 18, 16, 19, 24` in that order (with their
record values), `Search 10` and `Search 15` find the corresponding records
and `Search 99` reports not-found. -/
theorem C8_demo_scenario :
    (buildTree 3 demoEntries).bind (fun bt => Search bt 10) = some ("Record 10", true) ∧
    (buildTree 3 demoEntries).bind (fun bt => Search bt 15) = some ("Record 15", true) ∧
    (buildTree 3 demoEntries).bind (fun bt => Search bt 99) = some ("", false) := by
  refine ⟨searchBuildF_sound 32 ?_, searchBuildF_sound 32 ?_,
    searchBuildF_sound 32 ?_⟩ <;> decide


/-- **C1**: for every degree ≥ 2 and every insert sequence with pairwise
distinct keys applied to `NewBTree degree`, after each `Insert` returns
(i.e. after every prefix of the sequence) every node except possibly the
root holds between `degree-1` and `2*degree-1` keys (`Counts`), every node's
keys are strictly sorted ascending (`NodeSorted`), and all leaves sit at the
same depth (`Bal`). -/
theorem C1_invariant_preservation {t : Int} (ht : 2 ≤ t)
    (l : List (Int × String)) (hnd : (l.map Prod.fst).Nodup) (i : Nat) :
    ∃ bt : BTree, buildTree t (l.take i) = some bt ∧
      Counts t true bt.root ∧ NodeSorted bt.root ∧ ∃ h, Bal h bt.root := by
  have hnd' : ((l.take i).map Prod.fst).Nodup := by
    rw [List.map_take]
    exact (List.take_sublist i _).nodup hnd
  rcases buildTree_master ht (l.take i) hnd' with
    ⟨bt, hb, _, _, hcnt, hbal, hord, _⟩
  exact ⟨bt, hb, hcnt, ordered_nodeSorted bt.root none none hord, hbal⟩

/-- Witness for C1 at a concrete instance. -/
theorem C1_invariant_preservation_witness :
    (2 : Int) ≤ 2 ∧ (([((1 : Int), "a"), (2, "b")].map Prod.fst).Nodup) ∧
    (∃ bt : BTree, buildTree 2 ([((1 : Int), "a"), (2, "b")].take 1) = some bt ∧
      Counts 2 true bt.root ∧ NodeSorted bt.root ∧ ∃ h, Bal h bt.root) :=
  ⟨by decide, by decide, C1_invariant_preservation (by decide) _ (by decide) 1⟩

/-- **C2**: on a tree of degree ≥ 2 built from a sequence of inserts with
pairwise distinct keys, every inserted key is found by `Search` with its
associated value and every key never inserted reports not-found. -/
theorem C2_lookup_correctness {t : Int} (ht : 2 ≤ t)
    (l : List (Int × String)) (hnd : (l.map Prod.fst).Nodup) :
    ∃ bt : BTree, buildTree t l = some bt ∧
      (∀ kv ∈ l, Search bt kv.1 = some (kv.2, true)) ∧
      (∀ k : Int, k ∉ l.map Prod.fst → Search bt k = some ("", false)) := by
  rcases buildTree_master ht l hnd with ⟨bt, hb, _, hfit, _, _, hord, hperm⟩
  refine ⟨bt, hb, ?_, ?_⟩
  · intro kv hkv
    have hmem : (kv.1, kv.2) ∈ toList bt.root := by
      rw [Prod.mk.eta]
      exact hperm.mem_iff.2 hkv
    exact (searchNode_correct bt.root none none hfit hord trivial trivial).1 kv.2 hmem
  · intro k hk
    have hkeys : List.Perm (keyList bt.root) (l.map Prod.fst) := by
      have := hperm.map Prod.fst
      simpa [keyList] using this
    have hnot : k ∉ keyList bt.root := fun hin => hk (hkeys.mem_iff.1 hin)
    exact (searchNode_correct bt.root none none hfit hord trivial trivial).2 hnot

/-- Witness for C2 at a concrete instance. -/
theorem C2_lookup_correctness_witness :
    (2 : Int) ≤ 2 ∧ (([((1 : Int), "a")].map Prod.fst).Nodup) ∧
    (∃ bt : BTree, buildTree 2 [((1 : Int), "a")] = some bt ∧
      (∀ kv ∈ [((1 : Int), "a")], Search bt kv.1 = some (kv.2, true)) ∧
      (∀ k : Int, k ∉ [((1 : Int), "a")].map Prod.fst →
        Search bt k = some ("", false))) :=
  ⟨by decide, by decide, C2_lookup_correctness (by decide) [((1 : Int), "a")] (by decide)⟩

/-- **C3**: for degree `t ≥ 2`, splitting a child that holds exactly `2t-1`
strictly sorted keys under a non-full parent leaves keys `[0, t-1)` in the
original child, promotes the key/value at index `t-1` into the parent at
`childIndex`, moves keys `(t-1, 2t-1)` into a new sibling inserted right
after `childIndex`, partitions an internal child's pointers as
`take (t)`/`drop (t)`, the promoted median lands in neither half's key set,
and the sibling of an internal child has one more child than keys. -/
theorem C3_split_child_spec {t : Int} {pks : List Int} {pvs : List String}
    {pcs : List BTreeNode} {plf : Bool} {i : Nat} {cks : List Int}
    {cvs : List String} {ccs : List BTreeNode} {clf : Bool}
    (ht : 2 ≤ t)
    (hget : pcs[i]? = some (.mk cks cvs ccs clf))
    (hfull : (cks.length : Int) = 2 * t - 1)
    (hsorted : cks.Pairwise (· < ·))
    (hpnotfull : (pks.length : Int) < 2 * t - 1)
    (hvlen : cvs.length = cks.length)
    (hclen : clf = false → ccs.length = cks.length + 1)
    (hipk : i ≤ pks.length) (hipv : i ≤ pvs.length) :
    splitChild t (.mk pks pvs pcs plf) i = some (.mk
      (pks.insertIdx i (cks.getD (t - 1).toNat 0))
      (pvs.insertIdx i (cvs.getD (t - 1).toNat ""))
      ((pcs.set i (.mk (cks.take (t - 1).toNat) (cvs.take (t - 1).toNat)
          (if clf then ccs else ccs.take ((t - 1).toNat + 1)) clf)).insertIdx (i + 1)
        (.mk (cks.drop ((t - 1).toNat + 1)) (cvs.drop ((t - 1).toNat + 1))
          (if clf then [] else ccs.drop ((t - 1).toNat + 1)) clf))
      plf) ∧
    cks.getD (t - 1).toNat 0 ∉ cks.take (t - 1).toNat ∧
    cks.getD (t - 1).toNat 0 ∉ cks.drop ((t - 1).toNat + 1) ∧
    (clf = false → (ccs.drop ((t - 1).toNat + 1)).length =
      (cks.drop ((t - 1).toNat + 1)).length + 1) := by
  have hm : (t - 1).toNat < cks.length := by omega
  have hdrop : cks.drop (t - 1).toNat =
      cks.getD (t - 1).toNat 0 :: cks.drop ((t - 1).toNat + 1) := by
    rw [getD_eq_getElem_of_lt cks 0 hm]
    exact List.drop_eq_getElem_cons hm
  have hsplit2 : cks = cks.take (t - 1).toNat ++
      (cks.getD (t - 1).toNat 0 :: cks.drop ((t - 1).toNat + 1)) := by
    rw [← hdrop, List.take_append_drop]
  have hps : (cks.take (t - 1).toNat ++ (cks.getD (t - 1).toNat 0 ::
      cks.drop ((t - 1).toNat + 1))).Pairwise (· < ·) := by
    rw [← hsplit2]
    exact hsorted
  rcases List.pairwise_append.1 hps with ⟨hA, hB, hAB⟩
  refine ⟨splitChild_eq ht hget hfull hvlen hclen hipk hipv, ?_, ?_, ?_⟩
  · intro hx
    have := hAB _ hx _ (List.mem_cons_self _ _)
    omega
  · intro hx
    have := (List.pairwise_cons.1 hB).1 _ hx
    omega
  · intro hcl
    have hc := hclen hcl
    rw [List.length_drop, List.length_drop]
    omega

/-- Witness for C3 at a concrete instance (degree 2, a full leaf child with
keys `[1, 2, 3]` under a one-key parent). -/
theorem C3_split_child_spec_witness :
    ([1, 2, 3] : List Int).Pairwise (· < ·) ∧
    splitChild 2 (.mk [10] ["x"]
      [.mk [1, 2, 3] ["a", "b", "c"] [] true, .mk [20] ["y"] [] true] false) 0 =
      some (.mk [2, 10] ["b", "x"]
        [.mk [1] ["a"] [] true, .mk [3] ["c"] [] true, .mk [20] ["y"] [] true]
        false) ∧
    (2 : Int) ∉ ([1] : List Int) ∧ (2 : Int) ∉ ([3] : List Int) := by
  have h := @C3_split_child_spec 2 [10] ["x"]
    [.mk [1, 2, 3] ["a", "b", "c"] [] true, .mk [20] ["y"] [] true] false 0
    [1, 2, 3] ["a", "b", "c"] [] true (by decide) rfl (by decide) (by decide)
    (by decide) rfl (fun hcon => Bool.noConfusion hcon) (by decide) (by decide)
  exact ⟨by decide, h.1, by decide, by decide⟩

/-- **C5**: from `NewBTree degree` (degree ≥ 2) and any insert sequence, one
further `Insert` grows the height by at most one, and by exactly one
precisely when the root was full (`2*degree-1` keys) at the start of that
`Insert`; otherwise the height is unchanged. -/
theorem C5_height_growth {t : Int} (ht : 2 ≤ t) (l : List (Int × String))
    (key : Int) (value : String) :
    ∃ bt bt' : BTree, buildTree t l = some bt ∧ Insert bt key value = some bt' ∧
      height bt'.root ≤ height bt.root + 1 ∧
      height bt'.root = height bt.root + (if isFull t bt.root then 1 else 0) := by
  rcases newBTree_props ht with ⟨hfit0, hcnt0, hbal0, _, _⟩
  rcases build_any_master ht l (NewBTree t) 0 rfl hfit0 hcnt0 hbal0 with
    ⟨bt, hfold, _, hdeg, hfit, hcnt, ⟨h, hbal⟩, _⟩
  have ht' : 2 ≤ bt.degree := by rw [hdeg]; exact ht
  have hcnt' : Counts bt.degree true bt.root := by rw [hdeg]; exact hcnt
  rcases Insert_master ht' hfit hcnt' hbal key value with
    ⟨bt', hins, _, _, _, _, hbal', _, _⟩
  have hh : height bt'.root =
      height bt.root + (if isFull t bt.root then 1 else 0) := by
    rw [bal_height hbal', bal_height hbal, hdeg]
    cases hf : isFull t bt.root <;> simp [hf] <;> omega
  refine ⟨bt, bt', by rw [buildTree]; exact hfold, hins, ?_, hh⟩
  rw [hh]
  cases hf : isFull t bt.root <;> simp [hf]

/-- Witness for C5 at a concrete instance. -/
theorem C5_height_growth_witness :
    (2 : Int) ≤ 2 ∧
    (∃ bt bt' : BTree, buildTree 2 [] = some bt ∧ Insert bt 1 "a" = some bt' ∧
      height bt'.root ≤ height bt.root + 1 ∧
      height bt'.root = height bt.root + (if isFull 2 bt.root then 1 else 0)) :=
  ⟨by decide, C5_height_growth (by decide) [] 1 "a"⟩

/-- **C6**: `Insert` never checks for a pre-existing key: on a well-formed
tree of degree ≥ 2 that already contains `k`, `Insert k v` succeeds and adds
a second entry for `k` — the stored entry count grows by one and the
multiplicity of `k` in the traversal grows to at least two — rather than
rejecting or overwriting. -/
theorem C6_duplicate_insert_adds_second_entry {bt : BTree} (ht : 2 ≤ bt.degree)
    {h : Nat} (hfit : Fits bt.root) (hcnt : Counts bt.degree true bt.root)
    (hbal : Bal h bt.root) {k : Int} (hk : k ∈ keyList bt.root) (v : String) :
    ∃ bt' : BTree, Insert bt k v = some bt' ∧
      (toList bt'.root).length = (toList bt.root).length + 1 ∧
      (keyList bt'.root).count k = (keyList bt.root).count k + 1 ∧
      2 ≤ (keyList bt'.root).count k := by
  rcases Insert_master ht hfit hcnt hbal k v with
    ⟨bt', hins, _, _, _, _, _, hperm, _⟩
  have hkeys : List.Perm (keyList bt'.root) (k :: keyList bt.root) := by
    have := hperm.map Prod.fst
    simpa [keyList] using this
  have hlen : (toList bt'.root).length = (toList bt.root).length + 1 := by
    rw [hperm.length_eq]
    rfl
  have hcount : (keyList bt'.root).count k = (keyList bt.root).count k + 1 := by
    rw [hkeys.count_eq, List.count_cons_self]
  have hpos : (keyList bt.root).count k ≠ 0 :=
    fun h0 => (List.count_eq_zero.1 h0) hk
  exact ⟨bt', hins, hlen, hcount, by omega⟩

/-- Witness for C6 at a concrete instance (a one-entry leaf tree of degree 2
already holding key 5). -/
theorem C6_duplicate_insert_adds_second_entry_witness :
    ((5 : Int) ∈ keyList (BTreeNode.mk [5] ["a"] [] true)) ∧
    (∃ bt' : BTree,
      Insert ⟨BTreeNode.mk [5] ["a"] [] true, 2⟩ 5 "b" = some bt' ∧
      (toList bt'.root).length =
        (toList (BTree.mk (BTreeNode.mk [5] ["a"] [] true) 2).root).length + 1 ∧
      (keyList bt'.root).count 5 =
        (keyList (BTree.mk (BTreeNode.mk [5] ["a"] [] true) 2).root).count 5 + 1 ∧
      2 ≤ (keyList bt'.root).count 5) := by
  have hfit : Fits (BTreeNode.mk [5] ["a"] [] true) :=
    Fits.mk rfl (fun _ => rfl) (fun hcon => Bool.noConfusion hcon)
      (fun c hc => absurd hc (List.not_mem_nil c))
  have hcnt : Counts 2 true (BTreeNode.mk [5] ["a"] [] true) :=
    Counts.mk (fun hcon => Bool.noConfusion hcon) (by decide)
      (fun c hc => absurd hc (List.not_mem_nil c))
  have hmem : (5 : Int) ∈ keyList (BTreeNode.mk [5] ["a"] [] true) := by
    rw [keyList, toList]
    decide
  exact ⟨hmem, C6_duplicate_insert_adds_second_entry (by decide) hfit hcnt
    Bal.leaf hmem "b"⟩

/-- **C7** (Modelled from the spec: the in-order traversal `toList` realizes
the traversal the spec's order-independence clause speaks of; the source has
no traversal function): inserting the same distinct keys in any two orders
into `NewBTree degree` (degree ≥ 2) yields trees whose in-order key
sequences are the identical strictly sorted sequence. -/
theorem C7_order_independence {t : Int} (ht : 2 ≤ t)
    (l1 l2 : List (Int × String)) (hperm : l1.Perm l2)
    (hnd : (l1.map Prod.fst).Nodup) :
    ∃ bt1 bt2 : BTree, buildTree t l1 = some bt1 ∧ buildTree t l2 = some bt2 ∧
      keyList bt1.root = keyList bt2.root ∧
      (keyList bt1.root).Pairwise (· < ·) := by
  have hnd2 : (l2.map Prod.fst).Nodup := ((hperm.map Prod.fst).nodup_iff).1 hnd
  rcases buildTree_master ht l1 hnd with ⟨bt1, hb1, _, hfit1, _, _, hord1, hp1⟩
  rcases buildTree_master ht l2 hnd2 with ⟨bt2, hb2, _, hfit2, _, _, hord2, hp2⟩
  have hs1 : (keyList bt1.root).Pairwise (· < ·) :=
    okeys_pairwise (toList_okeys bt1.root none none hfit1 hord1)
  have hs2 : (keyList bt2.root).Pairwise (· < ·) :=
    okeys_pairwise (toList_okeys bt2.root none none hfit2 hord2)
  have hkp : List.Perm (keyList bt1.root) (keyList bt2.root) := by
    rw [keyList, keyList]
    exact ((hp1.map Prod.fst).trans (hperm.map Prod.fst)).trans
      (hp2.map Prod.fst).symm
  exact ⟨bt1, bt2, hb1, hb2, sorted_lt_perm_eq hkp hs1 hs2, hs1⟩

/-- Witness for C7 at a concrete instance (two orders of the same two keys). -/
theorem C7_order_independence_witness :
    (2 : Int) ≤ 2 ∧
    List.Perm [((1 : Int), "a"), (2, "b")] [((2 : Int), "b"), (1, "a")] ∧
    (([((1 : Int), "a"), (2, "b")].map Prod.fst).Nodup) ∧
    (∃ bt1 bt2 : BTree,
      buildTree 2 [((1 : Int), "a"), (2, "b")] = some bt1 ∧
      buildTree 2 [((2 : Int), "b"), (1, "a")] = some bt2 ∧
      keyList bt1.root = keyList bt2.root ∧
      (keyList bt1.root).Pairwise (· < ·)) :=
  ⟨by decide, by decide, by decide,
    C7_order_independence (by decide) _ _ (by decide) (by decide)⟩

/-- **C9**: from `NewBTree degree` (degree ≥ 2), over any insert sequence the
checked build — in which every `insertNonFull` invocation, top-level or
recursive, first verifies its node is not full and fails otherwise — runs to
the same result as the real code, so every invocation receives a non-full
node; and no node of the result exceeds `2*degree-1` keys. -/
theorem C9_insert_nonfull_always_nonfull {t : Int} (ht : 2 ≤ t)
    (l : List (Int × String)) :
    ∃ bt' : BTree, buildTree t l = some bt' ∧
      l.foldlM (fun b kv => InsertChk b kv.1 kv.2) (NewBTree t) = some bt' ∧
      Counts t true bt'.root := by
  rcases newBTree_props ht with ⟨hfit0, hcnt0, hbal0, _, _⟩
  rcases build_any_master ht l (NewBTree t) 0 rfl hfit0 hcnt0 hbal0 with
    ⟨bt', h1, h2, _, _, hcnt, _, _⟩
  exact ⟨bt', by rw [buildTree]; exact h1, h2, hcnt⟩

/-- Witness for C9 at a concrete instance. -/
theorem C9_insert_nonfull_always_nonfull_witness :
    (2 : Int) ≤ 2 ∧
    (∃ bt' : BTree, buildTree 2 [((1 : Int), "x")] = some bt' ∧
      [((1 : Int), "x")].foldlM (fun b kv => InsertChk b kv.1 kv.2)
        (NewBTree 2) = some bt' ∧
      Counts 2 true bt'.root) :=
  ⟨by decide, C9_insert_nonfull_always_nonfull (by decide) [((1 : Int), "x")]⟩

end BT
